import Mathlib

/-!
Verification of the `ranges` package: an in-memory collection of taxon
distribution ranges over a pixelated sphere, together with its TSV codec.

The embedding follows the Go sources:
  * `ranges.go` — `canon`, `Collection`, `Add`, `Set`, accessors;
  * the IO file — `ReadTSV` and `Collection.TSV`.

Modelling conventions:
  * Go strings are lists of runes (`List Char`); the Unicode case tables of
    the external `unicode` package are restricted to their ASCII portion.
  * `float64` densities are modelled as rationals (`ℚ`); division by zero
    (which in Go produces NaN/±Inf, never equal to `1.0`) yields `0`, which
    is likewise never `1`.
  * Go maps are association lists with the usual lookup/update semantics;
    insertion appends at the end, update replaces in place.
  * The external `earth` pixelation service is a pair (equator, cell count)
    together with a caller-supplied `pixLen : Nat → Nat` giving the cell
    count of `earth.NewPixelation eq`, and a `pixelOf` function for
    latitude/longitude lookup.
  * The external `encoding/csv` and `strconv` layers are abstracted: a TSV
    stream is a raw header row plus a list of typed data rows; the
    fixed-precision 6-decimal float formatting composed with re-parsing is
    the rounding function `round6`.
  * `Set` panicking in Go is modelled by an `Option` result (`none` =
    panic), and `ReadTSV` errors by `Except`.
-/

namespace Ranges

/-- Go strings, as lists of runes. -/
abbrev GoStr := List Char

/-- Literal notation helper for `GoStr`. -/
def gs (s : String) : GoStr := s.toList

/-- `unicode.IsSpace` (the characters Go recognises in `strings.Fields`),
by code point: space, tab, newline, vertical tab, form feed, carriage
return, NEL, NBSP. -/
def goIsSpace (c : Char) : Bool :=
  c.toNat = 32 || c.toNat = 9 || c.toNat = 10 || c.toNat = 11 ||
    c.toNat = 12 || c.toNat = 13 || c.toNat = 133 || c.toNat = 160

/-- `unicode.ToLower`, restricted to the ASCII part of the external case
tables (`A`–`Z` are code points 65–90). -/
def lowerChar (c : Char) : Char :=
  if 65 ≤ c.toNat && c.toNat ≤ 90 then Char.ofNat (c.toNat + 32) else c

/-- `unicode.ToUpper`, restricted to the ASCII part of the external case
tables (`a`–`z` are code points 97–122). -/
def upperChar (c : Char) : Char :=
  if 97 ≤ c.toNat && c.toNat ≤ 122 then Char.ofNat (c.toNat - 32) else c

/-- `strings.ToLower`. -/
def lowerStr (s : GoStr) : GoStr := s.map lowerChar

/-- One character of the `strings.Fields` scan, processed right to left:
the state is the word currently being collected and the finished words. -/
def fieldsStep (c : Char) (st : GoStr × List GoStr) : GoStr × List GoStr :=
  if goIsSpace c then ([], if st.1 = [] then st.2 else st.1 :: st.2)
  else (c :: st.1, st.2)

/-- `strings.Fields`: the maximal runs of non-space characters. -/
def fields (s : GoStr) : List GoStr :=
  let st := s.foldr fieldsStep ([], [])
  if st.1 = [] then st.2 else st.1 :: st.2

/-- `strings.Join ws " "`. -/
def joinSp : List GoStr → GoStr
  | [] => []
  | [w] => w
  | w :: ws => w ++ ' ' :: joinSp ws

/-- `canon` (ranges.go): collapse whitespace, lower-case, upper-case the
first rune. -/
def canon (s : GoStr) : GoStr :=
  match (joinSp (fields s)).map lowerChar with
  | [] => []
  | c :: rest => upperChar c :: rest

/-- The two valid values of the Go string type `Type`. -/
inductive RType where
  | points
  | range
deriving DecidableEq

/-- The string value of a `Type` constant. -/
def rtStr : RType → GoStr
  | .points => gs "points"
  | .range => gs "range"

/-- The external `earth.Pixelation` handle: its equator count and its total
cell count `Len()`. -/
structure Pixelation where
  equator : Nat
  len : Nat
deriving DecidableEq

/-- A taxon record (ranges.go `taxon`). -/
structure Taxon where
  name : GoStr
  tp : RType
  age : Int
  rng : List (Int × ℚ)
deriving DecidableEq

/-- A collection of distribution ranges (ranges.go `Collection`). -/
structure Collection where
  pix : Pixelation
  taxa : List (GoStr × Taxon)
deriving DecidableEq

/-- Go map lookup on an association list. -/
def alLookup {κ ν : Type} [DecidableEq κ] : List (κ × ν) → κ → Option ν
  | [], _ => none
  | (k, v) :: l, k' => if k' = k then some v else alLookup l k'

/-- Go map read with the zero value as default. -/
def alLookupD {κ ν : Type} [DecidableEq κ] (l : List (κ × ν)) (k : κ) (d : ν) :
    ν :=
  (alLookup l k).getD d

/-- Go map assignment `m[k] = v`: replace in place, or append a new entry. -/
def alUpdate {κ ν : Type} [DecidableEq κ] : List (κ × ν) → κ → ν → List (κ × ν)
  | [], k, v => [(k, v)]
  | (k₀, v₀) :: l, k, v =>
    if k = k₀ then (k, v) :: l else (k₀, v₀) :: alUpdate l k v

/-- `New` (ranges.go). -/
def New (pix : Pixelation) : Collection := ⟨pix, []⟩

/-- `Collection.Add` (ranges.go).  `pixelOf` models the external
`c.pix.Pixel(lat, lon).ID()`.  Note the source ignores the `age` argument:
a freshly created taxon carries the zero age. -/
def Add (pixelOf : Pixelation → ℚ → ℚ → Int) (c : Collection) (name : GoStr)
    (age : Int) (lat lon : ℚ) : Collection :=
  let nm := canon name
  if nm = [] then c
  else
    let (tax, taxa) :=
      match alLookup c.taxa nm with
      | some t => (t, c.taxa)
      | none =>
        let t : Taxon := ⟨nm, .points, 0, []⟩
        (t, c.taxa ++ [(nm, t)])
    if tax.tp ≠ .points then { c with taxa := taxa }
    else
      let px := pixelOf c.pix lat lon
      { c with taxa := alUpdate taxa nm { tax with rng := alUpdate tax.rng px 1 } }

/-- Modelled from the spec: `AddPixel(name, age, cellID)` is part of this
repository but its source file is not under src/ (only its tests and
callers are).  Per the spec it has a contract identical to `Add`, with the
cell id supplied directly instead of a coordinate. -/
def AddPixel (c : Collection) (name : GoStr) (age : Int) (px : Int) :
    Collection :=
  let nm := canon name
  if nm = [] then c
  else
    let (tax, taxa) :=
      match alLookup c.taxa nm with
      | some t => (t, c.taxa)
      | none =>
        let t : Taxon := ⟨nm, .points, 0, []⟩
        (t, c.taxa ++ [(nm, t)])
    if tax.tp ≠ .points then { c with taxa := taxa }
    else
      { c with taxa := alUpdate taxa nm { tax with rng := alUpdate tax.rng px 1 } }

/-- The running maximum loop of `Set` (ranges.go): `var max float64;
for _, v := range rng { if v > max { max = v } }`. -/
def goMaxQ (l : List (Int × ℚ)) : ℚ :=
  l.foldl (fun m p => if m < p.2 then p.2 else m) 0

/-- `Collection.Set` (ranges.go).  The Go code panics on a pixel id `≥`
`c.pix.Len()`; the panic is modelled as `none`.  Every entry of `rng` is
stored scaled by the maximum input value (zero and sub-threshold values
included: the source has no filtering despite its doc comment). -/
def Set (c : Collection) (name : GoStr) (age : Int) (rng : List (Int × ℚ)) :
    Option Collection :=
  let nm := canon name
  if nm = [] then some c
  else if rng.any (fun p => (c.pix.len : Int) ≤ p.1) then none
  else
    let mx := goMaxQ rng
    let tax : Taxon := ⟨nm, .range, age, rng.map (fun p => (p.1, p.2 / mx))⟩
    some { c with taxa := alUpdate c.taxa nm tax }

/-- Modelled from the spec: `SetPixels(name, age, field)` is part of this
repository but its source file is not under src/.  Per the spec it replaces
the taxon's record with type `Points`, the given age, and every key of
`field` mapped to exactly `1.0`; empty-after-canonicalization names are
no-ops. -/
def SetPixels (c : Collection) (name : GoStr) (age : Int)
    (rng : List (Int × ℚ)) : Collection :=
  let nm := canon name
  if nm = [] then c
  else
    let tax : Taxon := ⟨nm, .points, age, rng.map (fun p => (p.1, 1))⟩
    { c with taxa := alUpdate c.taxa nm tax }

/-- `Collection.Type` (ranges.go); the Go zero value `""` is `none`. -/
def typeOf (c : Collection) (name : GoStr) : Option RType :=
  let nm := canon name
  if nm = [] then none else (alLookup c.taxa nm).map Taxon.tp

/-- `Collection.Age` (ranges.go). -/
def ageOf (c : Collection) (name : GoStr) : Int :=
  let nm := canon name
  if nm = [] then 0
  else
    match alLookup c.taxa nm with
    | none => 0
    | some t => t.age

/-- `Collection.Range` (ranges.go); the Go `nil` map is `none`. -/
def rangeOf (c : Collection) (name : GoStr) : Option (List (Int × ℚ)) :=
  let nm := canon name
  if nm = [] then none else (alLookup c.taxa nm).map Taxon.rng

/-- Lexicographic string order (Go `slices.Sort` on strings). -/
def strLeB : GoStr → GoStr → Bool
  | [], _ => true
  | _ :: _, [] => false
  | a :: as, b :: bs => if a < b then true else if b < a then false else strLeB as bs

/-- `Collection.Taxa` (ranges.go): the sorted taxon names. -/
def taxaList (c : Collection) : List GoStr :=
  List.insertionSort (fun a b => strLeB a b = true)
    (c.taxa.map (fun kt => kt.2.name))

/-! ## The TSV codec -/

/-- A decoded data row.  The `encoding/csv` and `strconv` layers are
external: fields already split per column, with the numeric columns
carried as numbers (`strconv` round trips integers exactly; the
composition of 6-decimal formatting with re-parsing is `round6`). -/
structure Row where
  taxon : GoStr
  tp : GoStr
  age : Int
  equator : Nat
  pixel : Int
  density : ℚ
deriving DecidableEq

/-- A TSV stream after the external csv layer: the raw header row and the
data rows (comment lines are consumed by the csv reader). -/
structure TSVData where
  header : List GoStr
  rows : List Row
deriving DecidableEq

/-- The required header fields. -/
def headerFields : List GoStr :=
  [gs "taxon", gs "type", gs "age", gs "equator", gs "pixel", gs "density"]

/-- `strconv.FormatFloat(d, 'f', 6, 64)` composed with
`strconv.ParseFloat`: rounding to six decimal places. -/
def round6 (q : ℚ) : ℚ := (⌊q * 1000000 + 1/2⌋ : ℚ) / 1000000

/-- One data row written by `Collection.TSV` for a taxon and one of its
range entries. -/
def mkRow (eq : Nat) (t : Taxon) (p : Int × ℚ) : Row :=
  { taxon := t.name, tp := rtStr t.tp, age := t.age,
    equator := eq, pixel := p.1, density := round6 p.2 }

/-- The per-taxon block written by `Collection.TSV`: the pixels of the
taxon's range in ascending order, one row each. -/
def taxonRows (eq : Nat) (t : Taxon) : List Row :=
  let pixels := List.insertionSort (fun a b : Int => a ≤ b) (t.rng.map Prod.fst)
  pixels.filterMap fun px =>
    (alLookup t.rng px).map fun d => mkRow eq t (px, d)

/-- `Collection.TSV`: header, then one row per (taxon, pixel), taxa in
sorted name order, pixels ascending. -/
def TSV (c : Collection) : TSVData :=
  ⟨headerFields,
    (taxaList c).flatMap fun nm =>
      match alLookup c.taxa nm with
      | some t => taxonRows c.pix.equator t
      | none => []⟩

/-- Decode errors of `ReadTSV`, carrying the offending row number and
field data exactly as the Go error messages do. -/
inductive DErr where
  | header (field : GoStr)
  | equatorMismatch (row : Nat) (got want : Nat)
  | badType (row : Nat) (given : GoStr)
  | typeMismatch (row : Nat) (got want : RType)
  | ageMismatch (row : Nat) (got want : Int)
  | pixelBound (row : Nat) (px : Int)
  | noData
deriving DecidableEq

/-- The `type` column switch of `ReadTSV`: lower-case, then
`points`/`range`/empty (empty defaults to points); anything else is
invalid. -/
def parseType (s : GoStr) : Option RType :=
  if lowerStr s = gs "points" then some .points
  else if lowerStr s = gs "range" then some .range
  else if lowerStr s = [] then some .points
  else none

/-- The loop state of `ReadTSV`: the (possibly still unset) pixelation,
the (possibly still uncreated) collection, and the per-taxon running
maximum map. -/
structure DState where
  pix : Option Pixelation
  c : Option Collection
  maxm : List (GoStr × ℚ)
deriving DecidableEq

/-- The taxon lookup-or-create, consistency checks, bounds check, and
storing part of one `ReadTSV` row iteration (the part of the loop body
after the name check). -/
def stepRecord (idx : Nat) (pix : Pixelation) (c : Collection)
    (maxm : List (GoStr × ℚ)) (nm : GoStr) (tp : RType) (r : Row) :
    Except DErr DState :=
  let (tax, taxa) :=
    match alLookup c.taxa nm with
    | some t => (t, c.taxa)
    | none =>
      let t : Taxon := ⟨nm, tp, r.age, []⟩
      (t, c.taxa ++ [(nm, t)])
  if tax.tp ≠ tp then .error (.typeMismatch idx tp tax.tp)
  else if tax.age ≠ r.age then .error (.ageMismatch idx r.age tax.age)
  else if (pix.len : Int) ≤ r.pixel then .error (.pixelBound idx r.pixel)
  else
    let density := if tax.tp = .range then r.density else 1
    let tax' := { tax with rng := alUpdate tax.rng r.pixel density }
    let maxm' := if alLookupD maxm nm 0 < density
      then alUpdate maxm nm density else maxm
    .ok ⟨some pix, some { c with taxa := alUpdate taxa nm tax' }, maxm'⟩

/-- One iteration of the `ReadTSV` row loop. -/
def step (pixLen : Nat → Nat) (idx : Nat) (st : DState) (r : Row) :
    Except DErr DState :=
  let pix := match st.pix with
    | some p => p
    | none => ⟨r.equator, pixLen r.equator⟩
  if pix.equator ≠ r.equator then
    .error (.equatorMismatch idx r.equator pix.equator)
  else
    let c := match st.c with
      | some c => c
      | none => New pix
    match parseType r.tp with
    | none => .error (.badType idx r.tp)
    | some tp =>
      let nm := canon r.taxon
      if nm = [] then .ok ⟨some pix, some c, st.maxm⟩
      else stepRecord idx pix c st.maxm nm tp r

/-- The `ReadTSV` row loop. -/
def runRows (pixLen : Nat → Nat) : Nat → DState → List Row → Except DErr DState
  | _, st, [] => .ok st
  | idx, st, r :: rs =>
    match step pixLen idx st r with
    | .error e => .error e
    | .ok st' => runRows pixLen (idx + 1) st' rs

/-- The second pass of `ReadTSV`: scale every `Range` taxon by its
recorded maximum (skipped when the maximum is already 1). -/
def scaleTaxa (maxm : List (GoStr × ℚ)) (taxa : List (GoStr × Taxon)) :
    List (GoStr × Taxon) :=
  taxa.map fun kt =>
    if kt.2.tp = .points then kt
    else
      let scale := alLookupD maxm kt.2.name 0
      if scale = 1 then kt
      else (kt.1, { kt.2 with rng := kt.2.rng.map fun p => (p.1, p.2 / scale) })

/-- The header validation of `ReadTSV`: the first required field missing
from the lower-cased header, if any. -/
def missingField (header : List GoStr) : Option GoStr :=
  headerFields.find? fun h => decide (h ∉ header.map lowerStr)

/-- `ReadTSV`.  `pix` is the caller-supplied pixelation (`nil` = `none`),
`pixLen` the external `earth.NewPixelation` cell count. -/
def ReadTSV (pixLen : Nat → Nat) (pix : Option Pixelation) (d : TSVData) :
    Except DErr Collection :=
  match missingField d.header with
  | some h => .error (.header h)
  | none =>
    match runRows pixLen 1 ⟨pix, none, []⟩ d.rows with
    | .error e => .error e
    | .ok st =>
      match st.c with
      | none => .error .noData
      | some c => .ok { c with taxa := scaleTaxa st.maxm c.taxa }

/-- Whether an `Except` result is an error. -/
def isError {ε α : Type} : Except ε α → Bool
  | .error _ => true
  | .ok _ => false

/-- The maximum of the values of a range map (vocabulary of the claims:
`max(Range(name).values())`). -/
def maxVal (l : List (Int × ℚ)) : ℚ := (l.map Prod.snd).foldr max 0

/-- Strict lexicographic string order. -/
def strLtB : GoStr → GoStr → Bool
  | [], [] => false
  | [], _ :: _ => true
  | _ :: _, [] => false
  | a :: as, b :: bs => if a < b then true else if b < a then false else strLtB as bs

/-- A list of words is good when every word is non-empty and free of
white space: exactly the image of `fields`. -/
def FieldsGood (ws : List GoStr) : Prop :=
  ∀ w ∈ ws, w ≠ [] ∧ ∀ c ∈ w, goIsSpace c = false

/-- The decoder loop invariant tying the state's pixelation to the
collection being built. -/
def DInv (st : DState) : Prop := ∀ c, st.c = some c → st.pix = some c.pix

/-- The taxon record rebuilt by a decode of this taxon's encoded rows,
before the second (rescaling) pass: `Range` densities go through the
6-decimal formatting round trip, `Points` densities are reset to `1`. -/
def decTax (t : Taxon) : Taxon :=
  ⟨t.name, t.tp, t.age,
    t.rng.map fun p => (p.1, if t.tp = .range then round6 p.2 else 1)⟩

/-- Well-formedness of one taxon record, as established by the public
mutators: the key is the canonical non-empty name, the cell map (held
key-sorted in this model) is non-empty and in bounds, `Points` densities
are exactly `1`, and `Range` densities are normalized (maximum exactly
`1`). -/
def TaxonWF (len : Nat) (k : GoStr) (t : Taxon) : Prop :=
  t.name = k ∧ canon k = k ∧ k ≠ [] ∧ t.rng ≠ [] ∧
    t.rng.Pairwise (fun p q => p.1 < q.1) ∧
    (∀ p ∈ t.rng, p.1 < (len : Int)) ∧
    (t.tp = .points → ∀ p ∈ t.rng, p.2 = 1) ∧
    (t.tp = .range → (∀ p ∈ t.rng, p.2 ≤ 1) ∧ ∃ p ∈ t.rng, p.2 = 1)

/-- Well-formedness of a collection: the cell count agrees with the
external pixelation service, the taxa are held key-sorted (the canonical
representation of the Go map), and every record is well-formed. -/
def CollWF (pixLen : Nat → Nat) (c : Collection) : Prop :=
  c.pix.len = pixLen c.pix.equator ∧
    c.taxa.Pairwise (fun a b => strLtB a.1 b.1 = true) ∧
    ∀ kt ∈ c.taxa, TaxonWF c.pix.len kt.1 kt.2

/-! ## Concrete fixtures -/

/-- A cell-count function for the external pixelation service: every
equator value yields ten cells. -/
def exPixLen : Nat → Nat := fun _ => 10

/-- A pixelation with equator 4 and ten cells. -/
def exPix : Pixelation := ⟨4, 10⟩

/-- A collection holding one range-typed taxon. -/
def exRange : Collection :=
  ⟨exPix, [(gs "Ab cd", ⟨gs "Ab cd", .range, 5, [(0, 1)]⟩)]⟩

/-- The collection produced by `Set` on an all-zero field (C3/C2). -/
def setZeroResult : Collection :=
  ⟨exPix, [(gs "A", ⟨gs "A", .range, 0, [(0, 0)]⟩)]⟩

/-- The collection produced by `Set` on the field `{0 ↦ 0, 1 ↦ 1}`. -/
def setZeroStored : Collection :=
  ⟨exPix, [(gs "Foo", ⟨gs "Foo", .range, 0, [(0, 0), (1, 1)]⟩)]⟩

/-- A well-formed two-taxon collection for the round-trip witness. -/
def exWF : Collection :=
  ⟨exPix, [(gs "Ab", ⟨gs "Ab", .points, 0, [(2, 1), (5, 1)]⟩),
    (gs "Cd", ⟨gs "Cd", .range, 230, [(0, 1), (3, 1)]⟩)]⟩

/-- A collection whose single range taxon is not normalized (its maximum
density is 2, not 1). -/
def exHalf : Collection :=
  ⟨exPix, [(gs "X", ⟨gs "X", .range, 0, [(0, 2)]⟩)]⟩

/-! ## Theorems -/

theorem char_toNat_inj {a b : Char} (h : a.toNat = b.toNat) : a = b :=
  Char.ext (UInt32.ext h)

theorem toNat_ofNat_valid {n : ℕ} (h : n < 55296) : (Char.ofNat n).toNat = n := by
  have hv : n.isValidChar := Or.inl h
  simp only [Char.ofNat, hv, dif_pos]
  simp [Char.ofNatAux, Char.toNat, UInt32.toNat, UInt32.ofNatCore]

theorem lowerChar_toNat_of {c : Char} (h1 : 65 ≤ c.toNat) (h2 : c.toNat ≤ 90) :
    (lowerChar c).toNat = c.toNat + 32 := by
  rw [lowerChar, if_pos (by simp [h1, h2])]
  exact toNat_ofNat_valid (by omega)

theorem lowerChar_eq_of {c : Char} (h : ¬(65 ≤ c.toNat ∧ c.toNat ≤ 90)) :
    lowerChar c = c := by
  rw [lowerChar, if_neg]
  simp only [Bool.and_eq_true, decide_eq_true_eq]
  exact fun hc => h ⟨hc.1, hc.2⟩

theorem upperChar_toNat_of {c : Char} (h1 : 97 ≤ c.toNat) (h2 : c.toNat ≤ 122) :
    (upperChar c).toNat = c.toNat - 32 := by
  rw [upperChar, if_pos (by simp [h1, h2])]
  exact toNat_ofNat_valid (by omega)

theorem upperChar_eq_of {c : Char} (h : ¬(97 ≤ c.toNat ∧ c.toNat ≤ 122)) :
    upperChar c = c := by
  rw [upperChar, if_neg]
  simp only [Bool.and_eq_true, decide_eq_true_eq]
  exact fun hc => h ⟨hc.1, hc.2⟩

theorem lowerChar_lowerChar (c : Char) : lowerChar (lowerChar c) = lowerChar c := by
  by_cases h : 65 ≤ c.toNat ∧ c.toNat ≤ 90
  · have ht := lowerChar_toNat_of h.1 h.2
    exact lowerChar_eq_of (by omega)
  · rw [lowerChar_eq_of h, lowerChar_eq_of h]

theorem lowerChar_upperChar_lowerChar (c : Char) :
    lowerChar (upperChar (lowerChar c)) = lowerChar c := by
  by_cases h : 65 ≤ c.toNat ∧ c.toNat ≤ 90
  · have hl := lowerChar_toNat_of h.1 h.2
    have hu : (upperChar (lowerChar c)).toNat = (lowerChar c).toNat - 32 :=
      upperChar_toNat_of (by omega) (by omega)
    have he : upperChar (lowerChar c) = c := char_toNat_inj (by omega)
    rw [he]
  · rw [lowerChar_eq_of h]
    by_cases h2 : 97 ≤ c.toNat ∧ c.toNat ≤ 122
    · have hu := upperChar_toNat_of h2.1 h2.2
      have hl2 : (lowerChar (upperChar c)).toNat = (upperChar c).toNat + 32 :=
        lowerChar_toNat_of (by omega) (by omega)
      have he : lowerChar (upperChar c) = c := char_toNat_inj (by omega)
      rw [he]
    · rw [upperChar_eq_of h2, lowerChar_eq_of h]

theorem goIsSpace_iff {c : Char} : goIsSpace c = true ↔
    (c.toNat = 32 ∨ c.toNat = 9 ∨ c.toNat = 10 ∨ c.toNat = 11 ∨
      c.toNat = 12 ∨ c.toNat = 13 ∨ c.toNat = 133 ∨ c.toNat = 160) := by
  simp [goIsSpace, or_assoc]

theorem goIsSpace_lowerChar (c : Char) : goIsSpace (lowerChar c) = goIsSpace c := by
  rw [Bool.eq_iff_iff, goIsSpace_iff, goIsSpace_iff]
  by_cases h : 65 ≤ c.toNat ∧ c.toNat ≤ 90
  · have := lowerChar_toNat_of h.1 h.2
    omega
  · rw [lowerChar_eq_of h]

theorem goIsSpace_upperChar (c : Char) : goIsSpace (upperChar c) = goIsSpace c := by
  rw [Bool.eq_iff_iff, goIsSpace_iff, goIsSpace_iff]
  by_cases h : 97 ≤ c.toNat ∧ c.toNat ≤ 122
  · have := upperChar_toNat_of h.1 h.2
    omega
  · rw [upperChar_eq_of h]

theorem lowerChar_space : lowerChar ' ' = ' ' := by decide

theorem foldr_fieldsStep_word {w : GoStr} (hw : ∀ c ∈ w, goIsSpace c = false)
    (st : GoStr × List GoStr) :
    w.foldr fieldsStep st = (w ++ st.1, st.2) := by
  induction w with
  | nil => simp
  | cons c cs ih =>
    have hc : goIsSpace c = false := hw c (by simp)
    have ih' := ih (fun d hd => hw d (by simp [hd]))
    simp [List.foldr_cons, ih', fieldsStep, hc]

theorem fields_space_cons {t : GoStr} {c : Char} (hc : goIsSpace c = true) :
    fields (c :: t) = fields t := by
  simp [fields, fieldsStep, hc]

theorem fields_good (s : GoStr) : FieldsGood (fields s) := by
  suffices h : ∀ st : GoStr × List GoStr,
      (∀ c ∈ st.1, goIsSpace c = false) → FieldsGood st.2 →
      (∀ c ∈ (s.foldr fieldsStep st).1, goIsSpace c = false) ∧
        FieldsGood (s.foldr fieldsStep st).2 by
    have h' := h ([], []) (by simp) (by intro w hw; simp at hw)
    rw [fields]
    split <;> rename_i hcur
    · exact h'.2
    · intro w hw
      rcases List.mem_cons.mp hw with rfl | hw
      · exact ⟨hcur, h'.1⟩
      · exact h'.2 w hw
  intro st h1 h2
  induction s with
  | nil => exact ⟨h1, h2⟩
  | cons c cs ih =>
    simp only [List.foldr_cons]
    rcases ih with ⟨ih1, ih2⟩
    by_cases hc : goIsSpace c = true
    · refine ⟨?_, ?_⟩
      · simp [fieldsStep, hc]
      · simp only [fieldsStep, hc, if_true]
        split <;> rename_i hcur
        · exact ih2
        · intro w hw
          rcases List.mem_cons.mp hw with rfl | hw
          · exact ⟨hcur, ih1⟩
          · exact ih2 w hw
    · rw [Bool.not_eq_true] at hc
      refine ⟨?_, ?_⟩
      · simp only [fieldsStep, hc]
        intro d hd
        rcases List.mem_cons.mp hd with rfl | hd
        · exact hc
        · exact ih1 d hd
      · simpa [fieldsStep, hc] using ih2

theorem fields_joinSp : ∀ {ws : List GoStr}, FieldsGood ws →
    fields (joinSp ws) = ws := by
  intro ws
  induction ws with
  | nil => intro _; rfl
  | cons w ws ih =>
    intro hg
    have hw := hg w (by simp)
    have hws : FieldsGood ws := fun v hv => hg v (by simp [hv])
    cases ws with
    | nil =>
      show fields (joinSp [w]) = [w]
      rw [joinSp, fields, foldr_fieldsStep_word hw.2]
      simp [hw.1]
    | cons v vs =>
      have hj : joinSp (w :: v :: vs) = w ++ ' ' :: joinSp (v :: vs) := rfl
      rw [hj, fields, List.foldr_append, List.foldr_cons]
      have hrec := ih hws
      rw [fields] at hrec
      have hsp : goIsSpace ' ' = true := by decide
      rcases hst : (joinSp (v :: vs)).foldr fieldsStep ([], []) with ⟨cur, done⟩
      rw [hst] at hrec
      have hstep : fieldsStep ' ' (cur, done) = ([], v :: vs) := by
        simp only [fieldsStep, hsp, if_true]
        by_cases hcur : cur = []
        · simp only [hcur, if_pos rfl] at hrec ⊢
          simp_all
        · simp only [hcur, if_neg hcur] at hrec ⊢
          simp_all
      rw [hstep, foldr_fieldsStep_word hw.2]
      simp [hw.1]

theorem map_joinSp {f : Char → Char} (hf : f ' ' = ' ') :
    ∀ ws : List GoStr, (joinSp ws).map f = joinSp (ws.map (List.map f))
  | [] => rfl
  | [w] => rfl
  | w :: v :: vs => by
    have h1 : joinSp (w :: v :: vs) = w ++ ' ' :: joinSp (v :: vs) := rfl
    have h2 : joinSp ((w.map f) :: (v :: vs).map (List.map f)) =
        w.map f ++ ' ' :: joinSp ((v :: vs).map (List.map f)) := rfl
    rw [h1]
    simp only [List.map_append, List.map_cons, hf, List.map_map]
    rw [map_joinSp hf (v :: vs)]
    simp only [List.map_cons] at h2
    exact h2.symm

theorem canon_of_fields_nil {s : GoStr} (h : fields s = []) : canon s = [] := by
  simp [canon, h, joinSp]

theorem canon_idem (s : GoStr) : canon (canon s) = canon s := by
  rcases hws : fields s with _ | ⟨w, ws'⟩
  · rw [canon_of_fields_nil hws]
    decide
  · have hgood := fields_good s
    rw [hws] at hgood
    have hw := hgood w (by simp)
    rcases hwc : w with _ | ⟨a, w'⟩
    · exact absurd rfl (hwc ▸ hw.1)
    subst hwc
    -- set the tail of the joined string
    set tl : GoStr := (match ws' with
      | [] => []
      | _ :: _ => ' ' :: joinSp ws') with htl
    have hjoin : joinSp ((a :: w') :: ws') = a :: (w' ++ tl) := by
      cases ws' with
      | nil => simp [joinSp, htl]
      | cons v vs => simp [joinSp, htl]
    -- canon s
    have hcanon : canon s = upperChar (lowerChar a) :: (w' ++ tl).map lowerChar := by
      simp [canon, hws, hjoin]
    -- the canonical word list of canon s
    set ws₂ : List GoStr :=
      (upperChar (lowerChar a) :: w'.map lowerChar) :: ws'.map (List.map lowerChar)
      with hws₂
    have hjoin₂ : joinSp ws₂ = canon s := by
      rw [hcanon, hws₂]
      cases ws' with
      | nil => simp [joinSp, htl]
      | cons v vs =>
        have h2 : joinSp ((upperChar (lowerChar a) :: w'.map lowerChar) ::
            (v :: vs).map (List.map lowerChar)) =
            (upperChar (lowerChar a) :: w'.map lowerChar) ++
              ' ' :: joinSp ((v :: vs).map (List.map lowerChar)) := rfl
        rw [h2]
        have hm := map_joinSp lowerChar_space (v :: vs)
        simp only [List.map_cons] at hm
        simp only [htl, List.map_append, List.map_cons, lowerChar_space, hm]
        simp
    have hgood₂ : FieldsGood ws₂ := by
      intro u hu
      rw [hws₂] at hu
      rcases List.mem_cons.mp hu with rfl | hu
      · refine ⟨by simp, ?_⟩
        intro c hc
        rcases List.mem_cons.mp hc with rfl | hc
        · rw [goIsSpace_upperChar, goIsSpace_lowerChar]
          exact hw.2 a (by simp)
        · rcases List.mem_map.mp hc with ⟨d, hd, rfl⟩
          rw [goIsSpace_lowerChar]
          exact hw.2 d (by simp [hd])
      · rcases List.mem_map.mp hu with ⟨v, hv, rfl⟩
        have hvg := hgood v (by simp [hv])
        refine ⟨by simpa using hvg.1, ?_⟩
        intro c hc
        rcases List.mem_map.mp hc with ⟨d, hd, rfl⟩
        rw [goIsSpace_lowerChar]
        exact hvg.2 d hd
    have hfields₂ : fields (canon s) = ws₂ := by
      rw [← hjoin₂]
      exact fields_joinSp hgood₂
    -- now compute canon (canon s)
    have hmap : (canon s).map lowerChar =
        lowerChar a :: (w' ++ tl).map lowerChar := by
      rw [hcanon]
      simp only [List.map_cons, lowerChar_upperChar_lowerChar, List.map_map]
      congr 1
      apply List.map_congr_left
      intro d _
      exact lowerChar_lowerChar d
    calc canon (canon s)
        = match (joinSp (fields (canon s))).map lowerChar with
          | [] => []
          | c :: rest => upperChar c :: rest := rfl
      _ = canon s := by
          rw [hfields₂, hjoin₂, hmap, hcanon]

/-- C9.  Canonicalization is idempotent, and two names differing only in
letter case or internal/leading/trailing whitespace canonicalize to the
same key (witnessed by the spec's example pair). -/
theorem C9_canon_idempotent :
    (∀ x : GoStr, canon (canon x) = canon x) ∧
      canon (gs "  Foo  bar ") = canon (gs "foo bar") :=
  ⟨canon_idem, by decide⟩

/-! ### Association list lemmas -/

theorem alLookup_alUpdate_self {κ ν : Type} [DecidableEq κ]
    (l : List (κ × ν)) (k : κ) (v : ν) :
    alLookup (alUpdate l k v) k = some v := by
  induction l with
  | nil => simp [alUpdate, alLookup]
  | cons p l ih =>
    rcases p with ⟨k₀, v₀⟩
    by_cases h : k = k₀
    · simp [alUpdate, alLookup, h]
    · simp [alUpdate, alLookup, h, ih]

theorem alLookup_alUpdate_ne {κ ν : Type} [DecidableEq κ]
    (l : List (κ × ν)) {k k' : κ} (v : ν) (h : k' ≠ k) :
    alLookup (alUpdate l k v) k' = alLookup l k' := by
  induction l with
  | nil => simp [alUpdate, alLookup, h]
  | cons p l ih =>
    rcases p with ⟨k₀, v₀⟩
    by_cases h0 : k = k₀
    · subst h0
      simp [alUpdate, alLookup, h]
    · by_cases h1 : k' = k₀
      · simp [alUpdate, alLookup, h0, h1]
      · simp [alUpdate, alLookup, h0, h1, ih]

/-! ### Maximum lemmas -/

theorem maxVal_nil : maxVal [] = 0 := rfl

theorem maxVal_cons (x : Int × ℚ) (l : List (Int × ℚ)) :
    maxVal (x :: l) = max x.2 (maxVal l) := rfl

theorem ite_lt_eq_max (m v : ℚ) : (if m < v then v else m) = max m v := by
  by_cases h : m < v
  · simp [h, max_eq_right h.le]
  · simp [h, max_eq_left (not_lt.mp h)]

theorem foldr_max_base (l : List ℚ) (a c : ℚ) :
    l.foldr max (max a c) = max c (l.foldr max a) := by
  induction l with
  | nil => exact max_comm a c
  | cons x l ih => simp [List.foldr_cons, ih, max_left_comm]

theorem goMaxQ_eq_maxVal (l : List (Int × ℚ)) : goMaxQ l = maxVal l := by
  have hfun : (fun (m : ℚ) (p : Int × ℚ) => if m < p.2 then p.2 else m) =
      (fun m p => max m p.2) := by
    funext m p
    exact ite_lt_eq_max m p.2
  have h : ∀ a : ℚ, l.foldl (fun m p => max m p.2) a =
      (l.map Prod.snd).foldr max a := by
    induction l with
    | nil => intro a; rfl
    | cons x l ih =>
      intro a
      simp only [List.foldl_cons, List.map_cons, List.foldr_cons, ih]
      exact foldr_max_base _ a x.2
  rw [goMaxQ, hfun, h 0, maxVal]

theorem snd_le_maxVal {l : List (Int × ℚ)} {p : Int × ℚ} (h : p ∈ l) :
    p.2 ≤ maxVal l := by
  induction l with
  | nil => cases h
  | cons x l ih =>
    rw [maxVal_cons]
    rcases List.mem_cons.mp h with rfl | h
    · exact le_max_left _ _
    · exact le_trans (ih h) (le_max_right _ _)

theorem maxVal_map_div (l : List (Int × ℚ)) (M : ℚ) (hM : 0 < M) :
    maxVal (l.map (fun p => (p.1, p.2 / M))) = maxVal l / M := by
  induction l with
  | nil => simp [maxVal_nil]
  | cons x l ih =>
    rw [List.map_cons, maxVal_cons, maxVal_cons, ih]
    exact max_div_div_right hM.le x.2 (maxVal l)

/-! ### Accessor lemmas -/

theorem typeOf_eq {c : Collection} {name : GoStr} (h : ¬ canon name = []) :
    typeOf c name = (alLookup c.taxa (canon name)).map Taxon.tp := by
  simp only [typeOf]
  rw [if_neg h]

theorem ageOf_eq {c : Collection} {name : GoStr} (h : ¬ canon name = []) :
    ageOf c name = ((alLookup c.taxa (canon name)).map Taxon.age).getD 0 := by
  simp only [ageOf]
  rw [if_neg h]
  rcases alLookup c.taxa (canon name) with _ | t <;> rfl

theorem rangeOf_eq {c : Collection} {name : GoStr} (h : ¬ canon name = []) :
    rangeOf c name = (alLookup c.taxa (canon name)).map Taxon.rng := by
  simp only [rangeOf]
  rw [if_neg h]

/-! ### C2: Set normalization -/

/-- The result of `Set` on a name in the collection's key set. -/
theorem set_eq (c : Collection) (name : GoStr) (age : Int)
    (field : List (Int × ℚ)) (hname : ¬ canon name = [])
    (hany : (field.any fun p => decide ((c.pix.len : Int) ≤ p.1)) = false) :
    Set c name age field = some ⟨c.pix, alUpdate c.taxa (canon name)
      ⟨canon name, .range, age,
        field.map (fun p => (p.1, p.2 / goMaxQ field))⟩⟩ := by
  simp only [Set]
  rw [if_neg hname, if_neg (by simp [hany])]

/-- C2 (counterexample).  The claim fails when no input value is positive:
`Set` on the non-empty field `{0 ↦ 0}` stores `0 / 0` (`NaN` in Go,
modelled as `0`), and the maximum of the stored values is `0`, not `1`. -/
theorem C2_counterexample :
    Set (New exPix) (gs "A") 0 [(0, 0)] = some setZeroResult ∧
      maxVal ((rangeOf setZeroResult (gs "A")).getD []) ≠ 1 := by
  have hc : canon (gs "A") = gs "A" := by decide
  constructor
  · rw [set_eq (New exPix) (gs "A") 0 [(0, 0)] (by decide) (by decide)]
    rw [hc]
    norm_num [New, exPix, alUpdate, setZeroResult, goMaxQ]
  · decide

/-- C2 (amended).  After `Set(name, age, field)` with a name that does not
canonicalize to empty, all cell ids in bounds, and **at least one positive
value in `field`**, every stored value is the corresponding input value
divided by the maximum input value, and the maximum of the stored values
is exactly `1`. -/
theorem C2_set_normalizes (c : Collection) (name : GoStr) (age : Int)
    (field : List (Int × ℚ)) (hname : canon name ≠ [])
    (hbound : ∀ p ∈ field, p.1 < (c.pix.len : Int))
    (hpos : ∃ p ∈ field, 0 < p.2) :
    ∃ c', Set c name age field = some c' ∧
      rangeOf c' name = some (field.map (fun p => (p.1, p.2 / maxVal field))) ∧
      maxVal ((rangeOf c' name).getD []) = 1 := by
  obtain ⟨p₀, hp₀, hp₀pos⟩ := hpos
  have hMpos : 0 < maxVal field := lt_of_lt_of_le hp₀pos (snd_le_maxVal hp₀)
  have hany : (field.any fun p => decide ((c.pix.len : Int) ≤ p.1)) = false := by
    rw [List.any_eq_false]
    intro p hp
    simpa using not_le.mpr (hbound p hp)
  have hset := set_eq c name age field hname hany
  have hrange : rangeOf ⟨c.pix, alUpdate c.taxa (canon name)
      ⟨canon name, .range, age,
        field.map (fun p => (p.1, p.2 / goMaxQ field))⟩⟩ name =
      some (field.map (fun p => (p.1, p.2 / maxVal field))) := by
    rw [rangeOf_eq hname]
    show (alLookup (alUpdate c.taxa (canon name) _) (canon name)).map Taxon.rng = _
    rw [alLookup_alUpdate_self]
    simp [goMaxQ_eq_maxVal]
  refine ⟨_, hset, hrange, ?_⟩
  rw [hrange]
  simp only [Option.getD_some]
  rw [maxVal_map_div field _ hMpos, div_self (ne_of_gt hMpos)]

/-- C2 (witness for the amended theorem). -/
theorem C2_set_normalizes_witness :
    canon (gs "A") ≠ [] ∧
      (∀ p ∈ [((0 : Int), (1 : ℚ))], p.1 < ((New exPix).pix.len : Int)) ∧
      (∃ p ∈ [((0 : Int), (1 : ℚ))], 0 < p.2) ∧
      (∃ c', Set (New exPix) (gs "A") 7 [(0, 1)] = some c' ∧
        rangeOf c' (gs "A") =
          some ([((0 : Int), (1 : ℚ))].map
            (fun p => (p.1, p.2 / maxVal [((0 : Int), (1 : ℚ))]))) ∧
        maxVal ((rangeOf c' (gs "A")).getD []) = 1) :=
  ⟨by decide, by decide, by decide,
    C2_set_normalizes (New exPix) (gs "A") 7 [(0, 1)] (by decide)
      (by decide) (by decide)⟩

/-! ### C3: zero densities are stored -/

/-- C3 (code bug).  `Set("Foo", 0, {0 ↦ 0, 1 ↦ 1})` stores cell `0` with
density exactly `0`: the claim (and `Set`'s own doc comment, which promises
that values smaller than 0.0000005 are ignored) says zero-density entries
are never stored, but the storing loop in the source has no such filter. -/
theorem C3_zero_density_stored :
    Set (New exPix) (gs "Foo") 0 [(0, 0), (1, 1)] = some setZeroStored ∧
      alLookup ((rangeOf setZeroStored (gs "Foo")).getD []) 0 = some 0 := by
  have hc : canon (gs "Foo") = gs "Foo" := by decide
  constructor
  · rw [set_eq (New exPix) (gs "Foo") 0 [(0, 0), (1, 1)] (by decide) (by decide)]
    rw [hc]
    norm_num [New, exPix, alUpdate, setZeroStored, goMaxQ]
  · decide

/-! ### C4: Add against a Range taxon is a silent no-op -/

/-- C4.  `Add` (and the spec-modelled `AddPixel`) on a taxon whose current
type is `Range` leaves `Range(name)`, `Type(name)` and `Age(name)`
unchanged; no error is raised (both functions are total). -/
theorem C4_add_range_noop (pixelOf : Pixelation → ℚ → ℚ → Int)
    (c : Collection) (name : GoStr) (age : Int) (lat lon : ℚ) (px : Int)
    (h : typeOf c name = some .range) :
    rangeOf (Add pixelOf c name age lat lon) name = rangeOf c name ∧
      typeOf (Add pixelOf c name age lat lon) name = typeOf c name ∧
      ageOf (Add pixelOf c name age lat lon) name = ageOf c name ∧
      rangeOf (AddPixel c name age px) name = rangeOf c name ∧
      typeOf (AddPixel c name age px) name = typeOf c name ∧
      ageOf (AddPixel c name age px) name = ageOf c name := by
  have hnm : ¬ canon name = [] := by
    intro hn
    simp [typeOf, hn] at h
  obtain ⟨t, ht, htp⟩ : ∃ t, alLookup c.taxa (canon name) = some t ∧
      t.tp = .range := by
    rw [typeOf_eq hnm] at h
    rcases hl : alLookup c.taxa (canon name) with _ | t
    · rw [hl] at h; simp at h
    · rw [hl] at h
      simp at h
      exact ⟨t, rfl, h⟩
  have hadd : Add pixelOf c name age lat lon = c := by
    simp only [Add, ht, htp]
    rw [if_neg hnm, if_pos (show RType.range ≠ RType.points by decide)]
  have haddPx : AddPixel c name age px = c := by
    simp only [AddPixel, ht, htp]
    rw [if_neg hnm, if_pos (show RType.range ≠ RType.points by decide)]
  rw [hadd, haddPx]
  exact ⟨rfl, rfl, rfl, rfl, rfl, rfl⟩

/-- C4 (witness). -/
theorem C4_add_range_noop_witness :
    typeOf exRange (gs "Ab cd") = some .range ∧
      (rangeOf (Add (fun _ _ _ => 0) exRange (gs "Ab cd") 0 1 1) (gs "Ab cd") =
          rangeOf exRange (gs "Ab cd") ∧
        typeOf (Add (fun _ _ _ => 0) exRange (gs "Ab cd") 0 1 1) (gs "Ab cd") =
          typeOf exRange (gs "Ab cd") ∧
        ageOf (Add (fun _ _ _ => 0) exRange (gs "Ab cd") 0 1 1) (gs "Ab cd") =
          ageOf exRange (gs "Ab cd") ∧
        rangeOf (AddPixel exRange (gs "Ab cd") 0 3) (gs "Ab cd") =
          rangeOf exRange (gs "Ab cd") ∧
        typeOf (AddPixel exRange (gs "Ab cd") 0 3) (gs "Ab cd") =
          typeOf exRange (gs "Ab cd") ∧
        ageOf (AddPixel exRange (gs "Ab cd") 0 3) (gs "Ab cd") =
          ageOf exRange (gs "Ab cd")) :=
  ⟨by decide, C4_add_range_noop (fun _ _ _ => 0) exRange (gs "Ab cd") 0 1 1 3
    (by decide)⟩

/-! ### C8: SetPixels -/

/-- C8 (counterexample).  For a name that canonicalizes to empty the call
is a no-op, so `Type(name)` is not `Points` afterwards: the claim's
universal quantification over every name fails. -/
theorem C8_counterexample :
    typeOf (SetPixels (New exPix) (gs " ") 3 [(0, 1)]) (gs " ") ≠
      some .points := by
  decide

/-- C8 (amended).  For every name that does not canonicalize to empty,
after `SetPixels(name, age, field)` the taxon has type `Points`, the given
age, and a range containing exactly the keys of `field`, each with value
exactly `1`, whatever densities the input carried. -/
theorem C8_setPixels_points (c : Collection) (name : GoStr) (age : Int)
    (field : List (Int × ℚ)) (hname : canon name ≠ []) :
    typeOf (SetPixels c name age field) name = some .points ∧
      ageOf (SetPixels c name age field) name = age ∧
      rangeOf (SetPixels c name age field) name =
        some (field.map (fun p => (p.1, 1))) := by
  have hsp : SetPixels c name age field =
      ⟨c.pix, alUpdate c.taxa (canon name)
        ⟨canon name, .points, age, field.map (fun p => (p.1, 1))⟩⟩ := by
    simp only [SetPixels]
    rw [if_neg hname]
  refine ⟨?_, ?_, ?_⟩
  · rw [hsp, typeOf_eq hname]
    show (alLookup (alUpdate c.taxa (canon name) _) (canon name)).map Taxon.tp = _
    rw [alLookup_alUpdate_self]
    rfl
  · rw [hsp, ageOf_eq hname]
    show ((alLookup (alUpdate c.taxa (canon name) _) (canon name)).map
      Taxon.age).getD 0 = age
    rw [alLookup_alUpdate_self]
    rfl
  · rw [hsp, rangeOf_eq hname]
    show (alLookup (alUpdate c.taxa (canon name) _) (canon name)).map Taxon.rng = _
    rw [alLookup_alUpdate_self]
    rfl

/-- C8 (witness for the amended theorem). -/
theorem C8_setPixels_points_witness :
    canon (gs "Ab") ≠ [] ∧
      (typeOf (SetPixels (New exPix) (gs "Ab") 9 [(2, 5)]) (gs "Ab") =
          some .points ∧
        ageOf (SetPixels (New exPix) (gs "Ab") 9 [(2, 5)]) (gs "Ab") = 9 ∧
        rangeOf (SetPixels (New exPix) (gs "Ab") 9 [(2, 5)]) (gs "Ab") =
          some ([((2 : Int), (5 : ℚ))].map (fun p => (p.1, 1)))) :=
  ⟨by decide, C8_setPixels_points (New exPix) (gs "Ab") 9 [(2, 5)] (by decide)⟩

/-! ### Decoder lemmas -/

theorem alLookup_append_of_some {κ ν : Type} [DecidableEq κ]
    {l : List (κ × ν)} {k : κ} {v : ν}
    (h : alLookup l k = some v) (l' : List (κ × ν)) :
    alLookup (l ++ l') k = some v := by
  induction l with
  | nil => simp [alLookup] at h
  | cons p l ih =>
    rcases p with ⟨k₀, v₀⟩
    by_cases hk : k = k₀
    · simp only [alLookup, if_pos hk] at h
      simp only [List.cons_append, alLookup, if_pos hk]
      exact h
    · simp only [alLookup, if_neg hk] at h
      simp only [List.cons_append, alLookup, if_neg hk]
      exact ih h

theorem runRows_ok_cons {pixLen : Nat → Nat} {i : Nat} {st st' : DState}
    {r : Row} {rs : List Row}
    (h : runRows pixLen i st (r :: rs) = .ok st') :
    ∃ st1, step pixLen i st r = .ok st1 ∧
      runRows pixLen (i + 1) st1 rs = .ok st' := by
  unfold runRows at h
  rcases hs : step pixLen i st r with e | st1 <;> rw [hs] at h
  · simp at h
  · exact ⟨st1, rfl, h⟩

/-- Elimination for one successful `stepRecord`: the taxon is present in
the result with the row's parsed type and age, the pixel is in bounds, and
the pixelation is threaded through. -/
theorem stepRecord_ok_taxon {idx : Nat} {pix : Pixelation} {c : Collection}
    {maxm : List (GoStr × ℚ)} {nm : GoStr} {tp : RType} {r : Row}
    {st' : DState}
    (h : stepRecord idx pix c maxm nm tp r = .ok st') :
    st'.pix = some pix ∧ r.pixel < (pix.len : Int) ∧
      ∃ c' tax, st'.c = some c' ∧ c'.pix = c.pix ∧
        alLookup c'.taxa nm = some tax ∧ tax.tp = tp ∧ tax.age = r.age := by
  rcases hl : alLookup c.taxa nm with _ | tax₀
  all_goals simp only [stepRecord, hl] at h
  · -- fresh taxon
    split at h
    · simp at h
    · split at h
      · simp at h
      · split at h
        · simp at h
        · rename_i hpx
          injection h with h'
          subst h'
          exact ⟨rfl, not_le.mp hpx, _, _, rfl, rfl,
            alLookup_alUpdate_self _ _ _, rfl, rfl⟩
  · -- existing taxon
    split at h
    · simp at h
    · split at h
      · simp at h
      · split at h
        · simp at h
        · rename_i htp hage hpx
          injection h with h'
          subst h'
          refine ⟨rfl, not_le.mp hpx, _, _, rfl, rfl,
            alLookup_alUpdate_self _ _ _, ?_, ?_⟩
          · simpa using htp
          · simpa using hage

/-- One successful `stepRecord` never removes a taxon and never changes
its type or age. -/
theorem stepRecord_persist {idx : Nat} {pix : Pixelation} {c : Collection}
    {maxm : List (GoStr × ℚ)} {nm : GoStr} {tp : RType} {r : Row}
    {st' : DState} {nm₂ : GoStr} {tax₂ : Taxon}
    (h : stepRecord idx pix c maxm nm tp r = .ok st')
    (hl₂ : alLookup c.taxa nm₂ = some tax₂) :
    ∃ c' tax', st'.c = some c' ∧ c'.pix = c.pix ∧
      alLookup c'.taxa nm₂ = some tax' ∧
      tax'.tp = tax₂.tp ∧ tax'.age = tax₂.age := by
  by_cases hsame : nm₂ = nm
  · subst hsame
    rcases hl : alLookup c.taxa nm₂ with _ | tax₀
    · rw [hl] at hl₂; cases hl₂
    · rw [hl] at hl₂
      injection hl₂ with he
      subst he
      simp only [stepRecord, hl] at h
      split at h
      · simp at h
      · split at h
        · simp at h
        · split at h
          · simp at h
          · injection h with h'
            subst h'
            exact ⟨_, _, rfl, rfl, alLookup_alUpdate_self _ _ _, rfl, rfl⟩
  · rcases hl : alLookup c.taxa nm with _ | tax₀
    all_goals simp only [stepRecord, hl] at h
    · split at h
      · simp at h
      · split at h
        · simp at h
        · split at h
          · simp at h
          · injection h with h'
            subst h'
            refine ⟨_, tax₂, rfl, rfl, ?_, rfl, rfl⟩
            rw [alLookup_alUpdate_ne _ _ hsame]
            exact alLookup_append_of_some hl₂ _
    · split at h
      · simp at h
      · split at h
        · simp at h
        · split at h
          · simp at h
          · injection h with h'
            subst h'
            refine ⟨_, tax₂, rfl, rfl, ?_, rfl, rfl⟩
            rw [alLookup_alUpdate_ne _ _ hsame]
            exact hl₂

/-- Elimination for one successful `step`: the outer layers of the loop
body. -/
theorem step_ok_elim {pixLen : Nat → Nat} {idx : Nat} {st st' : DState}
    {r : Row}
    (h : step pixLen idx st r = .ok st') :
    ∃ pix c tp,
      (st.pix = some pix ∨ st.pix = none ∧ pix = ⟨r.equator, pixLen r.equator⟩) ∧
      pix.equator = r.equator ∧
      (st.c = some c ∨ st.c = none ∧ c = New pix) ∧
      parseType r.tp = some tp ∧
      (canon r.taxon = [] ∧ st' = ⟨some pix, some c, st.maxm⟩ ∨
        ¬ canon r.taxon = [] ∧
          stepRecord idx pix c st.maxm (canon r.taxon) tp r = .ok st') := by
  rcases st with ⟨spix, sc, sm⟩
  rcases spix with _ | p <;> rcases sc with _ | c₀
  case none.none =>
    simp only [step] at h
    rw [if_neg (fun hx => hx rfl)] at h
    rcases hpt : parseType r.tp with _ | tp
    · rw [hpt] at h; simp at h
    · simp only [hpt] at h
      by_cases hskip : canon r.taxon = []
      · rw [if_pos hskip] at h
        injection h with h'
        exact ⟨_, _, tp, Or.inr ⟨rfl, rfl⟩, rfl, Or.inr ⟨rfl, rfl⟩, rfl,
          Or.inl ⟨hskip, h'.symm⟩⟩
      · rw [if_neg hskip] at h
        exact ⟨_, _, tp, Or.inr ⟨rfl, rfl⟩, rfl, Or.inr ⟨rfl, rfl⟩, rfl,
          Or.inr ⟨hskip, h⟩⟩
  case none.some =>
    simp only [step] at h
    rw [if_neg (fun hx => hx rfl)] at h
    rcases hpt : parseType r.tp with _ | tp
    · rw [hpt] at h; simp at h
    · simp only [hpt] at h
      by_cases hskip : canon r.taxon = []
      · rw [if_pos hskip] at h
        injection h with h'
        exact ⟨_, c₀, tp, Or.inr ⟨rfl, rfl⟩, rfl, Or.inl rfl, rfl,
          Or.inl ⟨hskip, h'.symm⟩⟩
      · rw [if_neg hskip] at h
        exact ⟨_, c₀, tp, Or.inr ⟨rfl, rfl⟩, rfl, Or.inl rfl, rfl,
          Or.inr ⟨hskip, h⟩⟩
  case some.none =>
    simp only [step] at h
    split at h
    · simp at h
    · rename_i heq
      have heq' : p.equator = r.equator := not_ne_iff.mp heq
      rcases hpt : parseType r.tp with _ | tp
      · rw [hpt] at h; simp at h
      · simp only [hpt] at h
        by_cases hskip : canon r.taxon = []
        · rw [if_pos hskip] at h
          injection h with h'
          exact ⟨p, _, tp, Or.inl rfl, heq', Or.inr ⟨rfl, rfl⟩, rfl,
            Or.inl ⟨hskip, h'.symm⟩⟩
        · rw [if_neg hskip] at h
          exact ⟨p, _, tp, Or.inl rfl, heq', Or.inr ⟨rfl, rfl⟩, rfl,
            Or.inr ⟨hskip, h⟩⟩
  case some.some =>
    simp only [step] at h
    split at h
    · simp at h
    · rename_i heq
      have heq' : p.equator = r.equator := not_ne_iff.mp heq
      rcases hpt : parseType r.tp with _ | tp
      · rw [hpt] at h; simp at h
      · simp only [hpt] at h
        by_cases hskip : canon r.taxon = []
        · rw [if_pos hskip] at h
          injection h with h'
          exact ⟨p, c₀, tp, Or.inl rfl, heq', Or.inl rfl, rfl,
            Or.inl ⟨hskip, h'.symm⟩⟩
        · rw [if_neg hskip] at h
          exact ⟨p, c₀, tp, Or.inl rfl, heq', Or.inl rfl, rfl,
            Or.inr ⟨hskip, h⟩⟩

/-- A successfully processed row with a non-empty canonical name leaves the
taxon in the state with the row's parsed type and age. -/
theorem step_ok_taxon {pixLen : Nat → Nat} {idx : Nat} {st st' : DState}
    {r : Row} {t : RType}
    (h : step pixLen idx st r = .ok st')
    (hnm : ¬ canon r.taxon = []) (hpt : parseType r.tp = some t) :
    ∃ c' tax, st'.c = some c' ∧
      alLookup c'.taxa (canon r.taxon) = some tax ∧
      tax.tp = t ∧ tax.age = r.age := by
  obtain ⟨pix, c, tp, _, _, _, hpt', hrest⟩ := step_ok_elim h
  rw [hpt] at hpt'
  injection hpt' with he
  subst he
  rcases hrest with ⟨hskip, _⟩ | ⟨_, hrec⟩
  · exact absurd hskip hnm
  · obtain ⟨_, _, c', tax, hc', _, hl, htp, hage⟩ := stepRecord_ok_taxon hrec
    exact ⟨c', tax, hc', hl, htp, hage⟩

/-- One successful step never removes a taxon and never changes its type
or age. -/
theorem step_taxon_persist {pixLen : Nat → Nat} {idx : Nat} {st st' : DState}
    {r : Row} {nm : GoStr} {tax : Taxon} {c : Collection}
    (h : step pixLen idx st r = .ok st')
    (hc : st.c = some c) (hl : alLookup c.taxa nm = some tax) :
    ∃ c' tax', st'.c = some c' ∧ alLookup c'.taxa nm = some tax' ∧
      tax'.tp = tax.tp ∧ tax'.age = tax.age := by
  obtain ⟨pix, c₁, tp, _, _, hcs, _, hrest⟩ := step_ok_elim h
  have hc₁ : c₁ = c := by
    rcases hcs with hcs | ⟨hcs, _⟩
    · rw [hc] at hcs; injection hcs with he; exact he.symm
    · rw [hc] at hcs; cases hcs
  rw [hc₁] at hrest
  rcases hrest with ⟨_, hst'⟩ | ⟨_, hrec⟩
  · subst hst'
    exact ⟨c, tax, rfl, hl, rfl, rfl⟩
  · obtain ⟨c', tax', hc', _, hl', htp, hage⟩ := stepRecord_persist hrec hl
    exact ⟨c', tax', hc', hl', htp, hage⟩

theorem runRows_taxon_persist {pixLen : Nat → Nat} :
    ∀ {rows : List Row} {i : Nat} {st st' : DState} {nm : GoStr}
      {tax : Taxon} {c : Collection},
      runRows pixLen i st rows = .ok st' →
      st.c = some c → alLookup c.taxa nm = some tax →
      ∃ c' tax', st'.c = some c' ∧ alLookup c'.taxa nm = some tax' ∧
        tax'.tp = tax.tp ∧ tax'.age = tax.age := by
  intro rows
  induction rows with
  | nil =>
    intro i st st' nm tax c h hc hl
    unfold runRows at h
    injection h with h'
    exact ⟨c, tax, by rw [← h'] ; exact hc, hl, rfl, rfl⟩
  | cons r rs ih =>
    intro i st st' nm tax c h hc hl
    obtain ⟨st1, hstep, hrest⟩ := runRows_ok_cons h
    obtain ⟨c1, tax1, hc1, hl1, htp1, hage1⟩ := step_taxon_persist hstep hc hl
    obtain ⟨c', tax', hc', hl', htp', hage'⟩ := ih hrest hc1 hl1
    exact ⟨c', tax', hc', hl', htp'.trans htp1, hage'.trans hage1⟩

/-- A successfully processed row list records, for every row with a
non-empty canonical name, a taxon whose type and age match that row. -/
theorem runRows_row_taxon {pixLen : Nat → Nat} :
    ∀ {rows : List Row} {i : Nat} {st st' : DState} {r : Row} {t : RType},
      runRows pixLen i st rows = .ok st' → r ∈ rows →
      ¬ canon r.taxon = [] → parseType r.tp = some t →
      ∃ c' tax, st'.c = some c' ∧
        alLookup c'.taxa (canon r.taxon) = some tax ∧
        tax.tp = t ∧ tax.age = r.age := by
  intro rows
  induction rows with
  | nil => intro _ _ _ _ _ _ hr; cases hr
  | cons r0 rs ih =>
    intro i st st' r t h hr hnm hpt
    obtain ⟨st1, hstep, hrest⟩ := runRows_ok_cons h
    rcases List.mem_cons.mp hr with rfl | hr
    · obtain ⟨c1, tax1, hc1, hl1, htp1, hage1⟩ := step_ok_taxon hstep hnm hpt
      obtain ⟨c', tax', hc', hl', htp', hage'⟩ :=
        runRows_taxon_persist hrest hc1 hl1
      exact ⟨c', tax', hc', hl', htp'.trans htp1, hage'.trans hage1⟩
    · exact ih hrest hr hnm hpt

/-- A successful `ReadTSV` comes from a successful row loop whose state
carries a created collection; the result only rescales the taxa. -/
theorem readTSV_ok {pixLen : Nat → Nat} {pix : Option Pixelation}
    {d : TSVData} {c : Collection}
    (h : ReadTSV pixLen pix d = .ok c) :
    ∃ st c₀, runRows pixLen 1 ⟨pix, none, []⟩ d.rows = .ok st ∧
      st.c = some c₀ ∧ c = ⟨c₀.pix, scaleTaxa st.maxm c₀.taxa⟩ := by
  unfold ReadTSV at h
  split at h
  · simp at h
  · split at h <;> rename_i hrun
    · simp at h
    · split at h <;> rename_i hcs
      · simp at h
      · injection h with h'
        exact ⟨_, _, hrun, hcs, h'.symm⟩

/-! ### C7: empty stream -/

/-- C7.  Decoding a stream with a valid header and no data rows fails with
the no-data error; no empty collection is returned. -/
theorem C7_empty_stream (pixLen : Nat → Nat) (pix : Option Pixelation)
    (header : List GoStr) (hdr : missingField header = none) :
    ReadTSV pixLen pix ⟨header, []⟩ = .error .noData := by
  simp [ReadTSV, hdr, runRows]

/-- C7 (witness). -/
theorem C7_empty_stream_witness :
    missingField headerFields = none ∧
      ReadTSV exPixLen none ⟨headerFields, []⟩ = .error .noData :=
  ⟨by decide, C7_empty_stream exPixLen none headerFields (by decide)⟩

/-! ### C5: type/age consistency across rows of one taxon -/

/-- C5.  If a stream contains two data rows for the same (non-empty)
canonical taxon name whose parsed types differ or whose ages differ, the
decode never succeeds: the consistency check against the stored taxon
record fails (or an earlier error aborts the decode first). -/
theorem C5_consistency (pixLen : Nat → Nat) (pix : Option Pixelation)
    (d : TSVData) (r1 r2 : Row) (t1 t2 : RType)
    (h1 : r1 ∈ d.rows) (h2 : r2 ∈ d.rows)
    (hsame : canon r1.taxon = canon r2.taxon)
    (hne : ¬ canon r1.taxon = [])
    (hp1 : parseType r1.tp = some t1) (hp2 : parseType r2.tp = some t2)
    (hmis : t1 ≠ t2 ∨ r1.age ≠ r2.age) :
    isError (ReadTSV pixLen pix d) = true := by
  rcases hres : ReadTSV pixLen pix d with e | c
  · rfl
  · exfalso
    obtain ⟨st, c₀, hrun, _, _⟩ := readTSV_ok hres
    obtain ⟨ca, taxa, hca, hla, htpa, hagea⟩ :=
      runRows_row_taxon hrun h1 hne hp1
    obtain ⟨cb, taxb, hcb, hlb, htpb, hageb⟩ :=
      runRows_row_taxon hrun h2 (hsame ▸ hne) hp2
    rw [hca] at hcb
    injection hcb with hcab
    rw [← hcab, ← hsame, hla] at hlb
    injection hlb with hlab
    rcases hmis with hmis | hmis
    · exact hmis (htpa ▸ hlab ▸ htpb)
    · exact hmis (hagea ▸ hlab ▸ hageb)

/-- C5 (witness): two rows for one taxon with different ages. -/
theorem C5_consistency_witness :
    (⟨gs "Ab", gs "points", 0, 4, 1, 1⟩ : Row) ∈
        [(⟨gs "Ab", gs "points", 0, 4, 1, 1⟩ : Row),
          ⟨gs "ab", gs "points", 7, 4, 2, 1⟩] ∧
      (⟨gs "ab", gs "points", 7, 4, 2, 1⟩ : Row) ∈
        [(⟨gs "Ab", gs "points", 0, 4, 1, 1⟩ : Row),
          ⟨gs "ab", gs "points", 7, 4, 2, 1⟩] ∧
      isError (ReadTSV exPixLen none ⟨headerFields,
        [⟨gs "Ab", gs "points", 0, 4, 1, 1⟩,
          ⟨gs "ab", gs "points", 7, 4, 2, 1⟩]⟩) = true :=
  ⟨by decide, by decide,
    C5_consistency exPixLen none
      ⟨headerFields,
        [⟨gs "Ab", gs "points", 0, 4, 1, 1⟩,
          ⟨gs "ab", gs "points", 7, 4, 2, 1⟩]⟩
      ⟨gs "Ab", gs "points", 0, 4, 1, 1⟩
      ⟨gs "ab", gs "points", 7, 4, 2, 1⟩
      .points .points (by decide) (by decide) (by decide) (by decide)
      (by decide) (by decide) (Or.inr (by decide))⟩

/-! ### Pixelation threading through the decoder -/

theorem step_pix_inv {pixLen : Nat → Nat} {idx : Nat} {st st' : DState}
    {r : Row}
    (h : step pixLen idx st r = .ok st') (hinv : DInv st) :
    DInv st' ∧ ∃ c', st'.c = some c' ∧
      ∀ c, st.c = some c → c'.pix = c.pix := by
  obtain ⟨pix, c, tp, hps, _, hcs, _, hrest⟩ := step_ok_elim h
  have hpixc : c.pix = pix := by
    rcases hcs with hcs | ⟨_, rfl⟩
    · have hi := hinv c hcs
      rcases hps with hps | ⟨hps, _⟩
      · rw [hps] at hi
        injection hi with he
        exact he.symm
      · rw [hps] at hi
        cases hi
    · rfl
  rcases hrest with ⟨_, hst'⟩ | ⟨_, hrec⟩
  · subst hst'
    refine ⟨?_, c, rfl, ?_⟩
    · intro c₂ hc₂
      injection hc₂ with he
      rw [← he, hpixc]
    · intro c₀ hc₀
      rcases hcs with hcs | ⟨hcs, _⟩
      · rw [hcs] at hc₀
        injection hc₀ with he
        rw [he]
      · rw [hcs] at hc₀
        cases hc₀
  · obtain ⟨hpix', _, c', tax, hc', hcpix, _, _, _⟩ := stepRecord_ok_taxon hrec
    refine ⟨?_, c', hc', ?_⟩
    · intro c₂ hc₂
      rw [hc'] at hc₂
      injection hc₂ with he
      subst he
      rw [hpix', hcpix, hpixc]
    · intro c₀ hc₀
      rcases hcs with hcs | ⟨hcs, _⟩
      · rw [hcs] at hc₀
        injection hc₀ with he
        rw [hcpix, he]
      · rw [hcs] at hc₀
        cases hc₀

theorem runRows_pix_inv {pixLen : Nat → Nat} :
    ∀ {rows : List Row} {i : Nat} {st st' : DState},
      runRows pixLen i st rows = .ok st' → DInv st →
      DInv st' ∧ ∀ c, st.c = some c →
        ∃ c', st'.c = some c' ∧ c'.pix = c.pix := by
  intro rows
  induction rows with
  | nil =>
    intro i st st' h hinv
    unfold runRows at h
    injection h with h'
    subst h'
    exact ⟨hinv, fun c hc => ⟨c, hc, rfl⟩⟩
  | cons r rs ih =>
    intro i st st' h hinv
    obtain ⟨st1, hstep, hrest⟩ := runRows_ok_cons h
    obtain ⟨hinv1, c1, hc1, hpres⟩ := step_pix_inv hstep hinv
    obtain ⟨hinv', hpers⟩ := ih hrest hinv1
    refine ⟨hinv', ?_⟩
    intro c hc
    obtain ⟨c', hc', hpix'⟩ := hpers c1 hc1
    exact ⟨c', hc', hpix'.trans (hpres c hc)⟩

/-- Every non-skipped row of a successful row loop has its pixel within
the built collection's cell count. -/
theorem runRows_pixel_bound {pixLen : Nat → Nat} :
    ∀ {rows : List Row} {i : Nat} {st st' : DState} {r : Row},
      runRows pixLen i st rows = .ok st' → DInv st → r ∈ rows →
      ¬ canon r.taxon = [] →
      ∃ c', st'.c = some c' ∧ r.pixel < (c'.pix.len : Int) := by
  intro rows
  induction rows with
  | nil => intro _ _ _ _ _ _ hr; cases hr
  | cons r0 rs ih =>
    intro i st st' r h hinv hr hnm
    obtain ⟨st1, hstep, hrest⟩ := runRows_ok_cons h
    have hinv1 := (step_pix_inv hstep hinv).1
    rcases List.mem_cons.mp hr with rfl | hr
    · obtain ⟨pix, c, tp, _, _, _, _, hrest'⟩ := step_ok_elim hstep
      rcases hrest' with ⟨hskip, _⟩ | ⟨_, hrec⟩
      · exact absurd hskip hnm
      · obtain ⟨hpix1, hbound, c1, tax, hc1, hcpix, _, _, _⟩ :=
          stepRecord_ok_taxon hrec
        have hc1pix : c1.pix = pix := by
          have := hinv1 c1 hc1
          rw [hpix1] at this
          injection this with he
          exact he.symm
        obtain ⟨c', hc', hpix'⟩ := (runRows_pix_inv hrest hinv1).2 c1 hc1
        refine ⟨c', hc', ?_⟩
        rw [hpix', hc1pix]
        exact hbound
    · exact ih hrest hinv1 hr hnm

/-- In every successful decode, every data row with a non-empty canonical
name has its pixel id strictly below the collection's cell count. -/
theorem readTSV_pixel_bound {pixLen : Nat → Nat} {pix : Option Pixelation}
    {d : TSVData} {c : Collection} {r : Row}
    (h : ReadTSV pixLen pix d = .ok c)
    (hr : r ∈ d.rows) (hnm : ¬ canon r.taxon = []) :
    r.pixel < (c.pix.len : Int) := by
  obtain ⟨st, c₀, hrun, hc₀, hceq⟩ := readTSV_ok h
  obtain ⟨c', hc', hbound⟩ := runRows_pixel_bound hrun
    (fun c hc => by cases hc) hr hnm
  rw [hc₀] at hc'
  injection hc' with he
  subst he
  rw [hceq]
  exact hbound

/-! ### C6: cell id bounds -/

/-- The `Set` half of the bounds check, for names that are not silently
dropped. -/
theorem set_bound_fatal (c : Collection) (name : GoStr) (age : Int)
    (field : List (Int × ℚ)) (hname : ¬ canon name = [])
    (hout : ∃ p ∈ field, (c.pix.len : Int) ≤ p.1) :
    Set c name age field = none := by
  simp only [Set]
  rw [if_neg hname, if_pos]
  simp only [List.any_eq_true]
  obtain ⟨p, hp, hle⟩ := hout
  exact ⟨p, hp, by simpa using hle⟩

/-- C6 (counterexample).  As stated the claim fails for names that
canonicalize to empty: `Set` with such a name returns normally even when
the map holds cell id `99 ≥ 10`, and a data row with an empty canonical
name and pixel `99 ≥ 10` decodes without any error. -/
theorem C6_counterexample :
    Set (New exPix) (gs " ") 0 [(99, 1)] = some (New exPix) ∧
      ReadTSV exPixLen none
          ⟨headerFields, [⟨gs " ", gs "points", 0, 4, 99, 1⟩]⟩ =
        .ok (New ⟨4, exPixLen 4⟩) := by
  constructor
  · rfl
  · rfl

/-- C6 (amended).  For names and rows that are not silently skipped
(non-empty canonical name), any cell id at or above the collection's cell
count is fatal: `Set` panics (`none`), and a decode that returns a
collection has every such row's pixel strictly below the cell count —
equivalently, an out-of-bounds pixel in a processed row aborts the
decode. -/
theorem C6_bounds :
    (∀ (c : Collection) (name : GoStr) (age : Int) (field : List (Int × ℚ)),
      ¬ canon name = [] → (∃ p ∈ field, (c.pix.len : Int) ≤ p.1) →
      Set c name age field = none) ∧
    (∀ (pixLen : Nat → Nat) (pix : Option Pixelation) (d : TSVData)
      (c : Collection) (r : Row), ReadTSV pixLen pix d = .ok c →
      r ∈ d.rows → ¬ canon r.taxon = [] → r.pixel < (c.pix.len : Int)) :=
  ⟨fun c name age field hname hout => set_bound_fatal c name age field hname hout,
    fun _ _ _ _ _ h hr hnm => readTSV_pixel_bound h hr hnm⟩

/-- C6 (witness for the amended theorem). -/
theorem C6_bounds_witness :
    Set (New exPix) (gs "A") 0 [(99, 1)] = none ∧
      (2 : Int) < (((⟨⟨4, 10⟩,
        [(gs "Ab", ⟨gs "Ab", .points, 3, [(2, 1)]⟩)]⟩ : Collection)).pix.len : Int) :=
  ⟨C6_bounds.1 (New exPix) (gs "A") 0 [(99, 1)] (by decide)
      ⟨(99, 1), by decide, by decide⟩,
    C6_bounds.2 exPixLen none
      ⟨headerFields, [⟨gs "Ab", gs "points", 3, 4, 2, 1⟩]⟩
      ⟨⟨4, 10⟩, [(gs "Ab", ⟨gs "Ab", .points, 3, [(2, 1)]⟩)]⟩
      ⟨gs "Ab", gs "points", 3, 4, 2, 1⟩ (by rfl) (by decide) (by decide)⟩

/-! ### C10: rows whose names canonicalize to empty -/

theorem step_skip {pixLen : Nat → Nat} {idx : Nat} {p : Pixelation}
    {c : Collection} {m : List (GoStr × ℚ)} {r : Row}
    (heq : p.equator = r.equator) (hpt : (parseType r.tp).isSome)
    (hnm : canon r.taxon = []) :
    step pixLen idx ⟨some p, some c, m⟩ r = .ok ⟨some p, some c, m⟩ := by
  simp only [step]
  rw [if_neg (by simp [heq])]
  rcases hp : parseType r.tp with _ | tp
  · rw [hp] at hpt; simp at hpt
  · simp only [hp]
    rw [if_pos hnm]

theorem step_first_skip {pixLen : Nat → Nat} {idx : Nat} {r : Row}
    (hpt : (parseType r.tp).isSome) (hnm : canon r.taxon = []) :
    step pixLen idx ⟨none, none, []⟩ r =
      .ok ⟨some ⟨r.equator, pixLen r.equator⟩,
        some (New ⟨r.equator, pixLen r.equator⟩), []⟩ := by
  simp only [step]
  rw [if_neg (fun hx => hx rfl)]
  rcases hp : parseType r.tp with _ | tp
  · rw [hp] at hpt; simp at hpt
  · simp only [hp]
    rw [if_pos hnm]

theorem runRows_all_skip {pixLen : Nat → Nat} {p : Pixelation}
    {c : Collection} :
    ∀ {rows : List Row} {i : Nat} {m : List (GoStr × ℚ)},
      (∀ r ∈ rows, r.equator = p.equator ∧ (parseType r.tp).isSome ∧
        canon r.taxon = []) →
      runRows pixLen i ⟨some p, some c, m⟩ rows = .ok ⟨some p, some c, m⟩ := by
  intro rows
  induction rows with
  | nil => intro i m _; rfl
  | cons r rs ih =>
    intro i m hall
    obtain ⟨he, ht, hn⟩ := hall r (by simp)
    unfold runRows
    rw [step_skip he.symm ht hn]
    exact ih (fun r hr => hall r (by simp [hr]))

/-- C10.  A stream (with a valid header and at least one data row) whose
data rows all parse — matching equator, valid type, integral age — but
whose taxon names all canonicalize to empty decodes without error to a
collection with no taxa: the collection is created from the first row
before the name check skips it, so the no-data error does not fire. -/
theorem C10_empty_names_decode (pixLen : Nat → Nat) (header : List GoStr)
    (r0 : Row) (rs : List Row) (hdr : missingField header = none)
    (heq : ∀ r ∈ r0 :: rs, r.equator = r0.equator)
    (htp : ∀ r ∈ r0 :: rs, (parseType r.tp).isSome)
    (hnm : ∀ r ∈ r0 :: rs, canon r.taxon = []) :
    ReadTSV pixLen none ⟨header, r0 :: rs⟩ =
      .ok (New ⟨r0.equator, pixLen r0.equator⟩) ∧
      taxaList (New ⟨r0.equator, pixLen r0.equator⟩) = [] := by
  constructor
  · have hrun : runRows pixLen 1 ⟨none, none, []⟩ (r0 :: rs) =
        .ok ⟨some ⟨r0.equator, pixLen r0.equator⟩,
          some (New ⟨r0.equator, pixLen r0.equator⟩), []⟩ := by
      unfold runRows
      rw [step_first_skip (htp r0 (by simp)) (hnm r0 (by simp))]
      exact runRows_all_skip (fun r hr =>
        ⟨heq r (by simp [hr]), htp r (by simp [hr]), hnm r (by simp [hr])⟩)
    simp only [ReadTSV, hdr, hrun]
    rfl
  · rfl

/-- C10 (witness). -/
theorem C10_empty_names_decode_witness :
    missingField headerFields = none ∧
      ReadTSV exPixLen none
          ⟨headerFields, [⟨gs "  ", gs "points", 0, 4, 99, 1⟩]⟩ =
        .ok (New ⟨4, exPixLen 4⟩) ∧
      taxaList (New ⟨4, exPixLen 4⟩) = [] :=
  ⟨by decide,
    C10_empty_names_decode exPixLen headerFields
      ⟨gs "  ", gs "points", 0, 4, 99, 1⟩ [] (by decide) (by decide)
      (by decide) (by decide)⟩

/-! ### Further association list lemmas -/

theorem alLookup_eq_none_of_not_mem {κ ν : Type} [DecidableEq κ]
    {l : List (κ × ν)} {k : κ} (h : k ∉ l.map Prod.fst) :
    alLookup l k = none := by
  induction l with
  | nil => rfl
  | cons p l ih =>
    simp only [List.map_cons, List.mem_cons] at h
    push_neg at h
    simp only [alLookup, if_neg h.1]
    exact ih h.2

theorem alLookup_mem {κ ν : Type} [DecidableEq κ] :
    ∀ {l : List (κ × ν)} {k : κ} {v : ν},
      alLookup l k = some v → (k, v) ∈ l := by
  intro l
  induction l with
  | nil => intro k v h; cases h
  | cons p l ih =>
    intro k v h
    rcases p with ⟨k₀, v₀⟩
    by_cases hk : k = k₀
    · subst hk
      simp only [alLookup, if_pos rfl] at h
      injection h with he
      subst he
      exact List.mem_cons_self _ _
    · simp only [alLookup, if_neg hk] at h
      exact List.mem_cons_of_mem _ (ih h)

theorem alLookup_of_mem_nodup {κ ν : Type} [DecidableEq κ] :
    ∀ {l : List (κ × ν)} {k : κ} {v : ν},
      (k, v) ∈ l → (l.map Prod.fst).Nodup → alLookup l k = some v := by
  intro l
  induction l with
  | nil => intro k v h; cases h
  | cons p l ih =>
    intro k v h hnd
    rcases p with ⟨k₀, v₀⟩
    simp only [List.map_cons, List.nodup_cons] at hnd
    rcases List.mem_cons.mp h with he | h
    · injection he with he1 he2
      subst he1; subst he2
      simp [alLookup]
    · have hk : k ≠ k₀ := fun he =>
        hnd.1 (List.mem_map.mpr ⟨(k, v), h, by simp [he]⟩)
      simp only [alLookup, if_neg hk]
      exact ih h hnd.2

theorem alUpdate_eq_append {κ ν : Type} [DecidableEq κ]
    {l : List (κ × ν)} {k : κ} (v : ν) (h : alLookup l k = none) :
    alUpdate l k v = l ++ [(k, v)] := by
  induction l with
  | nil => rfl
  | cons p l ih =>
    rcases p with ⟨k₀, v₀⟩
    by_cases hk : k = k₀
    · subst hk
      simp [alLookup] at h
    · simp only [alLookup, if_neg hk] at h
      simp only [alUpdate, if_neg hk, List.cons_append]
      rw [ih h]

theorem alUpdate_self_of_lookup {κ ν : Type} [DecidableEq κ] :
    ∀ {l : List (κ × ν)} {k : κ} {v : ν},
      alLookup l k = some v → alUpdate l k v = l := by
  intro l
  induction l with
  | nil => intro k v h; cases h
  | cons p l ih =>
    intro k v h
    rcases p with ⟨k₀, v₀⟩
    by_cases hk : k = k₀
    · subst hk
      simp only [alLookup, if_pos rfl] at h
      injection h with he
      subst he
      simp [alUpdate]
    · simp only [alLookup, if_neg hk] at h
      simp only [alUpdate, if_neg hk]
      rw [ih h]

theorem alUpdate_alUpdate {κ ν : Type} [DecidableEq κ]
    (l : List (κ × ν)) (k : κ) (v w : ν) :
    alUpdate (alUpdate l k v) k w = alUpdate l k w := by
  induction l with
  | nil => simp [alUpdate]
  | cons p l ih =>
    rcases p with ⟨k₀, v₀⟩
    by_cases hk : k = k₀
    · subst hk
      simp [alUpdate]
    · simp only [alUpdate, if_neg hk]
      rw [ih]

theorem alLookup_append_none {κ ν : Type} [DecidableEq κ]
    {l l' : List (κ × ν)} {k : κ}
    (h : alLookup l k = none) (h' : alLookup l' k = none) :
    alLookup (l ++ l') k = none := by
  induction l with
  | nil => exact h'
  | cons p l ih =>
    rcases p with ⟨k₀, v₀⟩
    by_cases hk : k = k₀
    · subst hk
      simp [alLookup] at h
    · simp only [alLookup, if_neg hk] at h
      simp only [List.cons_append, alLookup, if_neg hk]
      exact ih h

theorem alLookup_map_val {κ ν ν' : Type} [DecidableEq κ] (f : ν → ν') :
    ∀ (l : List (κ × ν)) (k : κ),
      alLookup (l.map fun kt => (kt.1, f kt.2)) k = (alLookup l k).map f := by
  intro l
  induction l with
  | nil => intro k; rfl
  | cons p l ih =>
    intro k
    rcases p with ⟨k₀, v₀⟩
    by_cases hk : k = k₀
    · simp [alLookup, hk]
    · simp only [List.map_cons, alLookup, if_neg hk]
      exact ih k

/-! ### round6 lemmas -/

theorem round6_abs (q : ℚ) : |round6 q - q| ≤ 1 / 1000000 := by
  have h1 := Int.floor_le (q * 1000000 + 1/2)
  have h2 := Int.lt_floor_add_one (q * 1000000 + 1/2)
  have h3 : round6 q * 1000000 = (⌊q * 1000000 + 1/2⌋ : ℚ) := by
    rw [round6]
    field_simp
  rw [abs_le]
  constructor <;> linarith

theorem round6_one : round6 1 = 1 := by
  have hf : ⌊(1 : ℚ) * 1000000 + 1/2⌋ = 1000000 := by
    rw [Int.floor_eq_iff]
    constructor <;> norm_num
  rw [round6, hf]
  norm_num

theorem round6_le_one {q : ℚ} (h : q ≤ 1) : round6 q ≤ 1 := by
  have hm : (⌊q * 1000000 + 1/2⌋ : ℤ) ≤ ⌊(1 : ℚ) * 1000000 + 1/2⌋ :=
    Int.floor_le_floor (by linarith)
  have hf : ⌊(1 : ℚ) * 1000000 + 1/2⌋ = 1000000 := by
    rw [Int.floor_eq_iff]
    constructor <;> norm_num
  rw [round6, div_le_one (by norm_num : (0:ℚ) < 1000000)]
  rw [hf] at hm
  exact_mod_cast hm

/-! ### fold-max lemmas for the decoder's running maximum -/

theorem foldl_iteMax_eq_foldr (ds : List ℚ) :
    ∀ a : ℚ, ds.foldl (fun m d => if m < d then d else m) a = ds.foldr max a := by
  have hfun : (fun (m d : ℚ) => if m < d then d else m) =
      (fun m d => max m d) := by
    funext m d
    exact ite_lt_eq_max m d
  rw [hfun]
  induction ds with
  | nil => intro a; rfl
  | cons d ds ih =>
    intro a
    simp only [List.foldl_cons, List.foldr_cons, ih]
    exact foldr_max_base _ a d

theorem foldr_max_le {ds : List ℚ} {b : ℚ} (hb : b ≤ 1)
    (h : ∀ d ∈ ds, d ≤ 1) : ds.foldr max b ≤ 1 := by
  induction ds with
  | nil => exact hb
  | cons d ds ih =>
    simp only [List.foldr_cons, max_le_iff]
    exact ⟨h d (by simp), ih (fun d hd => h d (by simp [hd]))⟩

theorem le_foldr_max {ds : List ℚ} {b d : ℚ} (h : d ∈ ds) :
    d ≤ ds.foldr max b := by
  induction ds with
  | nil => cases h
  | cons x ds ih =>
    simp only [List.foldr_cons]
    rcases List.mem_cons.mp h with rfl | h
    · exact le_max_left _ _
    · exact le_trans (ih h) (le_max_right _ _)

theorem foldr_max_eq_one {ds : List ℚ} (hle : ∀ d ∈ ds, d ≤ 1)
    (hone : (1 : ℚ) ∈ ds) : ds.foldr max 0 = 1 :=
  le_antisymm (foldr_max_le (by norm_num) hle) (le_foldr_max hone)

/-! ### string order lemmas -/

theorem strLtB_irrefl : ∀ a : GoStr, strLtB a a = false := by
  intro a
  induction a with
  | nil => rfl
  | cons c cs ih =>
    simp only [strLtB, if_neg (lt_irrefl c)]
    exact ih

theorem strLeB_of_strLtB : ∀ {a b : GoStr}, strLtB a b = true → strLeB a b = true := by
  intro a
  induction a with
  | nil => intro b _; rfl
  | cons c cs ih =>
    intro b h
    cases b with
    | nil => simp [strLtB] at h
    | cons d ds =>
      simp only [strLtB] at h
      simp only [strLeB]
      split at h <;> rename_i h1
      · rw [if_pos h1]
      · split at h <;> rename_i h2
        · cases h
        · rw [if_neg h1, if_neg h2]
          exact ih h

theorem strLtB_ne {a b : GoStr} (h : strLtB a b = true) : a ≠ b := by
  intro he
  subst he
  rw [strLtB_irrefl] at h
  cases h

/-! ### the type column of encoded rows -/

theorem parseType_rtStr (tp : RType) : parseType (rtStr tp) = some tp := by
  cases tp <;> decide

/-! ### Encode-side normalization -/

theorem filterMap_ext {α β : Type} {f g : α → Option β} :
    ∀ {l : List α}, (∀ x ∈ l, f x = g x) → l.filterMap f = l.filterMap g := by
  intro l
  induction l with
  | nil => intro _; rfl
  | cons x l ih =>
    intro h
    rw [List.filterMap_cons, List.filterMap_cons, h x (by simp),
      ih (fun y hy => h y (by simp [hy]))]

theorem flatMap_map' {α β γ : Type} (f : α → β) (g : β → List γ) :
    ∀ l : List α, (l.map f).flatMap g = l.flatMap (fun x => g (f x)) := by
  intro l
  induction l with
  | nil => rfl
  | cons x l ih => simp [ih]

theorem flatMap_ext {α β : Type} {f g : α → List β} :
    ∀ {l : List α}, (∀ x ∈ l, f x = g x) → l.flatMap f = l.flatMap g := by
  intro l
  induction l with
  | nil => intro _; rfl
  | cons x l ih =>
    intro h
    simp only [List.flatMap_cons]
    rw [h x (by simp), ih (fun y hy => h y (by simp [hy]))]

theorem filterMap_lookup_map {β : Type} (f : Int × ℚ → β) :
    ∀ {l : List (Int × ℚ)}, l.Pairwise (fun p q => p.1 < q.1) →
      (l.map Prod.fst).filterMap
        (fun px => (alLookup l px).map (fun d => f (px, d))) =
      l.map f := by
  intro l
  induction l with
  | nil => intro _; rfl
  | cons p l ih =>
    intro hp
    rcases List.pairwise_cons.mp hp with ⟨hhead, htail⟩
    simp only [List.map_cons, List.filterMap_cons]
    have hself : alLookup (p :: l) p.1 = some p.2 := by
      rcases p with ⟨px, d⟩
      simp [alLookup]
    rw [hself]
    have hcongr : (l.map Prod.fst).filterMap
        (fun px => (alLookup (p :: l) px).map (fun d => f (px, d))) =
        (l.map Prod.fst).filterMap
        (fun px => (alLookup l px).map (fun d => f (px, d))) := by
      apply filterMap_ext
      intro px hpx
      rcases List.mem_map.mp hpx with ⟨q, hq, rfl⟩
      have hne : q.1 ≠ p.1 := fun he => absurd (he ▸ hhead q hq) (lt_irrefl _)
      rcases p with ⟨px₀, d₀⟩
      simp only [alLookup, if_neg hne]
    simp only [Option.map_some']
    rw [hcongr, ih htail]

theorem taxonRows_eq {eq : Nat} {t : Taxon}
    (h : t.rng.Pairwise (fun p q => p.1 < q.1)) :
    taxonRows eq t = t.rng.map (mkRow eq t) := by
  unfold taxonRows
  have hsorted : List.insertionSort (fun a b : Int => a ≤ b)
      (t.rng.map Prod.fst) = t.rng.map Prod.fst :=
    List.Sorted.insertionSort_eq
      (List.pairwise_map.mpr (h.imp (fun hab => le_of_lt hab)))
  rw [hsorted]
  exact filterMap_lookup_map (mkRow eq t) h

theorem taxaList_eq_keys {pixLen : Nat → Nat} {c : Collection}
    (h : CollWF pixLen c) : taxaList c = c.taxa.map Prod.fst := by
  unfold taxaList
  have hnames : c.taxa.map (fun kt => kt.2.name) = c.taxa.map Prod.fst :=
    List.map_congr_left (fun kt hkt => (h.2.2 kt hkt).1)
  rw [hnames]
  exact List.Sorted.insertionSort_eq
    (List.pairwise_map.mpr (h.2.1.imp (fun hab => strLeB_of_strLtB hab)))

theorem collWF_keys_nodup {pixLen : Nat → Nat} {c : Collection}
    (h : CollWF pixLen c) : (c.taxa.map Prod.fst).Nodup :=
  (List.pairwise_map.mpr h.2.1).imp (fun hab => strLtB_ne hab)

/-- Under well-formedness the encoded stream is exactly the per-taxon
blocks in storage order. -/
theorem TSV_rows_eq {pixLen : Nat → Nat} {c : Collection}
    (h : CollWF pixLen c) :
    (TSV c).rows =
      c.taxa.flatMap (fun kt => kt.2.rng.map (mkRow c.pix.equator kt.2)) := by
  show (taxaList c).flatMap _ = _
  rw [taxaList_eq_keys h, flatMap_map']
  apply flatMap_ext
  intro kt hkt
  rcases kt with ⟨k, t⟩
  show (match alLookup c.taxa k with
    | some u => taxonRows c.pix.equator u
    | none => []) = t.rng.map (mkRow c.pix.equator t)
  rw [alLookup_of_mem_nodup hkt (collWF_keys_nodup h)]
  exact taxonRows_eq (h.2.2 (k, t) hkt).2.2.2.2.1

/-! ### Forward computation of the decoder on encoded blocks -/

theorem alLookup_append_of_none {κ ν : Type} [DecidableEq κ]
    {l : List (κ × ν)} {k : κ} (h : alLookup l k = none)
    (l' : List (κ × ν)) : alLookup (l ++ l') k = alLookup l' k := by
  induction l with
  | nil => rfl
  | cons p l ih =>
    rcases p with ⟨k₀, v₀⟩
    by_cases hk : k = k₀
    · subst hk
      simp [alLookup] at h
    · simp only [alLookup, if_neg hk] at h
      simp only [List.cons_append, alLookup, if_neg hk]
      exact ih h

theorem alUpdate_append_singleton {κ ν : Type} [DecidableEq κ]
    {l : List (κ × ν)} {k : κ} (v w : ν) (h : alLookup l k = none) :
    alUpdate (l ++ [(k, v)]) k w = l ++ [(k, w)] := by
  induction l with
  | nil => simp [alUpdate]
  | cons p l ih =>
    rcases p with ⟨k₀, v₀⟩
    by_cases hk : k = k₀
    · subst hk
      simp [alLookup] at h
    · simp only [alLookup, if_neg hk] at h
      simp only [List.cons_append, alUpdate, if_neg hk]
      exact congrArg (List.cons (k₀, v₀)) (ih h)

/-- Forward computation of `stepRecord` when the taxon already exists and
all checks pass. -/
theorem stepRecord_compute {idx : Nat} {pix : Pixelation} {c : Collection}
    {m : List (GoStr × ℚ)} {k : GoStr} {tp : RType} {r : Row} {τ : Taxon}
    (hl : alLookup c.taxa k = some τ) (htp : τ.tp = tp) (hage : τ.age = r.age)
    (hbound : r.pixel < (pix.len : Int)) :
    stepRecord idx pix c m k tp r = .ok ⟨some pix,
      some ⟨c.pix, alUpdate c.taxa k
        ⟨τ.name, τ.tp, τ.age,
          alUpdate τ.rng r.pixel (if τ.tp = .range then r.density else 1)⟩⟩,
      if alLookupD m k 0 < (if τ.tp = .range then r.density else 1)
        then alUpdate m k (if τ.tp = .range then r.density else 1) else m⟩ := by
  simp only [stepRecord, hl]
  rw [if_neg (not_ne_iff.mpr htp), if_neg (not_ne_iff.mpr hage),
    if_neg (not_le.mpr hbound)]

/-- Forward computation of `stepRecord` when the taxon is created fresh. -/
theorem stepRecord_compute_fresh {idx : Nat} {pix : Pixelation}
    {c : Collection} {m : List (GoStr × ℚ)} {k : GoStr} {tp : RType} {r : Row}
    (hl : alLookup c.taxa k = none) (hbound : r.pixel < (pix.len : Int)) :
    stepRecord idx pix c m k tp r = .ok ⟨some pix,
      some ⟨c.pix, c.taxa ++ [(k, ⟨k, tp, r.age,
        [(r.pixel, if tp = .range then r.density else 1)]⟩)]⟩,
      if alLookupD m k 0 < (if tp = .range then r.density else 1)
        then alUpdate m k (if tp = .range then r.density else 1) else m⟩ := by
  simp only [stepRecord, hl]
  rw [if_neg (not_ne_iff.mpr rfl), if_neg (not_ne_iff.mpr rfl),
    if_neg (not_le.mpr hbound)]
  rw [alUpdate_append_singleton _ _ hl]
  rfl

theorem runRows_append {pixLen : Nat → Nat} :
    ∀ {xs ys : List Row} {i : Nat} {st st' : DState},
      runRows pixLen i st xs = .ok st' →
      runRows pixLen i st (xs ++ ys) = runRows pixLen (i + xs.length) st' ys := by
  intro xs
  induction xs with
  | nil =>
    intro ys i st st' h
    injection h with h'
    subst h'
    rfl
  | cons x xs ih =>
    intro ys i st st' h
    obtain ⟨st1, hstep, hrest⟩ := runRows_ok_cons h
    show (match step pixLen i st x with
      | Except.error e => (Except.error e : Except DErr DState)
      | Except.ok st1 => runRows pixLen (i + 1) st1 (xs ++ ys)) = _
    rw [hstep]
    show runRows pixLen (i + 1) st1 (xs ++ ys) = _
    rw [ih hrest]
    have hidx : i + 1 + xs.length = i + (x :: xs).length := by
      simp only [List.length_cons]
      omega
    rw [hidx]

/-- Starting the loop with no pixelation and no collection is the same as
starting it with the pixelation inferred from the first row and a fresh
collection. -/
theorem runRows_none_eq {pixLen : Nat → Nat} {i : Nat}
    {m : List (GoStr × ℚ)} {r : Row} {rs : List Row} :
    runRows pixLen i ⟨none, none, m⟩ (r :: rs) =
      runRows pixLen i ⟨some ⟨r.equator, pixLen r.equator⟩,
        some (New ⟨r.equator, pixLen r.equator⟩), m⟩ (r :: rs) := rfl

/-- Processing the remaining rows of one taxon's encoded block, with the
taxon already created: the cells are appended in order and the running
maximum folds over the stored densities. -/
theorem runRows_block_inner {pixLen : Nat → Nat} {pix : Pixelation} {eq : Nat}
    {k tname : GoStr} {tp : RType} {age : Int}
    (heq : pix.equator = eq) (hname : canon tname = k) (hk0 : ¬ k = []) :
    ∀ (ps r₀ : List (Int × ℚ)) (i : Nat) (c : Collection)
      (m : List (GoStr × ℚ)),
      alLookup c.taxa k = some ⟨k, tp, age, r₀⟩ →
      (∀ p ∈ ps, p.1 < (pix.len : Int)) →
      (((r₀ ++ ps).map Prod.fst).Nodup) →
      ∃ m', runRows pixLen i ⟨some pix, some c, m⟩
          (ps.map fun p => ⟨tname, rtStr tp, age, eq, p.1, round6 p.2⟩) =
        .ok ⟨some pix, some ⟨c.pix, alUpdate c.taxa k ⟨k, tp, age,
          r₀ ++ ps.map (fun p => (p.1, if tp = .range then round6 p.2 else 1))⟩⟩,
          m'⟩ ∧
        (∀ nm₂, ¬ nm₂ = k → alLookup m' nm₂ = alLookup m nm₂) ∧
        alLookupD m' k 0 =
          (ps.map fun p => if tp = .range then round6 p.2 else 1).foldl
            (fun a d => if a < d then d else a) (alLookupD m k 0) := by
  intro ps
  induction ps with
  | nil =>
    intro r₀ i c m hl _ _
    refine ⟨m, ?_, fun _ _ => rfl, rfl⟩
    simp only [List.map_nil, List.append_nil]
    rw [alUpdate_self_of_lookup hl]
    rfl
  | cons p ps ih =>
    intro r₀ i c m hl hb hnd
    have hbp : p.1 < (pix.len : Int) := hb p (by simp)
    -- the stored density of this row
    set d : ℚ := if tp = .range then round6 p.2 else 1 with hd
    -- the first row leaves the taxon with the new cell appended
    have hpnotin : p.1 ∉ r₀.map Prod.fst := by
      intro hmem
      rw [List.map_append] at hnd
      rcases List.nodup_append.mp hnd with ⟨_, _, hdisj⟩
      exact hdisj hmem (by simp)
    have hupd : alUpdate r₀ p.1 d = r₀ ++ [(p.1, d)] :=
      alUpdate_eq_append d (alLookup_eq_none_of_not_mem hpnotin)
    have hstep : step pixLen i ⟨some pix, some c, m⟩
        ⟨tname, rtStr tp, age, eq, p.1, round6 p.2⟩ =
        .ok ⟨some pix, some ⟨c.pix, alUpdate c.taxa k
            ⟨k, tp, age, r₀ ++ [(p.1, d)]⟩⟩,
          if alLookupD m k 0 < d then alUpdate m k d else m⟩ := by
      simp only [step]
      rw [if_neg (show ¬ pix.equator ≠ eq from not_ne_iff.mpr heq)]
      simp only [parseType_rtStr, hname]
      rw [if_neg hk0]
      have hc := @stepRecord_compute i pix c m k tp
        ⟨tname, rtStr tp, age, eq, p.1, round6 p.2⟩
        ⟨k, tp, age, r₀⟩ hl rfl rfl hbp
      rw [hc, hupd]
    -- apply the induction hypothesis from the updated state
    have hl₁ : alLookup (alUpdate c.taxa k ⟨k, tp, age, r₀ ++ [(p.1, d)]⟩) k =
        some ⟨k, tp, age, r₀ ++ [(p.1, d)]⟩ := alLookup_alUpdate_self _ _ _
    have hnd₁ : (((r₀ ++ [(p.1, d)]) ++ ps).map Prod.fst).Nodup := by
      have hmeq : ((r₀ ++ [(p.1, d)]) ++ ps).map Prod.fst =
          (r₀ ++ p :: ps).map Prod.fst := by
        simp
      rw [hmeq]
      exact hnd
    obtain ⟨m', hrun, hother, hval⟩ := ih (r₀ ++ [(p.1, d)]) (i + 1)
      ⟨c.pix, alUpdate c.taxa k ⟨k, tp, age, r₀ ++ [(p.1, d)]⟩⟩
      (if alLookupD m k 0 < d then alUpdate m k d else m)
      hl₁ (fun q hq => hb q (by simp [hq])) hnd₁
    refine ⟨m', ?_, ?_, ?_⟩
    · show (match step pixLen i ⟨some pix, some c, m⟩
          ⟨tname, rtStr tp, age, eq, p.1, round6 p.2⟩ with
        | Except.error e => (Except.error e : Except DErr DState)
        | Except.ok st1 => runRows pixLen (i + 1) st1 _) = _
      rw [hstep]
      show runRows pixLen (i + 1) _ _ = _
      rw [hrun]
      rw [alUpdate_alUpdate]
      have hr : (r₀ ++ [(p.1, d)]) ++
          ps.map (fun p => (p.1, if tp = .range then round6 p.2 else 1)) =
          r₀ ++ (p :: ps).map
            (fun p => (p.1, if tp = .range then round6 p.2 else 1)) := by
        rw [List.append_assoc, List.map_cons]
        rfl
      rw [hr]
    · intro nm₂ hne
      rw [hother nm₂ hne]
      by_cases hcond : alLookupD m k 0 < d
      · rw [if_pos hcond, alLookup_alUpdate_ne _ _ hne]
      · rw [if_neg hcond]
    · rw [hval]
      have hm₁ : alLookupD (if alLookupD m k 0 < d then alUpdate m k d else m)
          k 0 = if alLookupD m k 0 < d then d else alLookupD m k 0 := by
        by_cases hcond : alLookupD m k 0 < d
        · rw [if_pos hcond, if_pos hcond]
          show (alLookup (alUpdate m k d) k).getD 0 = d
          rw [alLookup_alUpdate_self]
          rfl
        · rw [if_neg hcond, if_neg hcond]
      rw [hm₁]
      rfl

/-- Processing one taxon's entire encoded block from a state where the
taxon and its running maximum are both absent: the decoded record is
appended and its recorded maximum is exactly `1`. -/
theorem runRows_taxon_block {pixLen : Nat → Nat} {pix : Pixelation} {eq : Nat}
    {k : GoStr} {t : Taxon}
    (heq : pix.equator = eq) (hwf : TaxonWF pix.len k t) :
    ∀ (i : Nat) (c : Collection) (m : List (GoStr × ℚ)),
      alLookup c.taxa k = none → alLookup m k = none →
      ∃ m', runRows pixLen i ⟨some pix, some c, m⟩
          (t.rng.map (mkRow eq t)) =
        .ok ⟨some pix, some ⟨c.pix, c.taxa ++ [(k, decTax t)]⟩, m'⟩ ∧
        (∀ nm₂, ¬ nm₂ = k → alLookup m' nm₂ = alLookup m nm₂) ∧
        alLookupD m' k 0 = 1 := by
  obtain ⟨hnm, hck, hk0, hne, hpw, hbound, hpts, hrng⟩ := hwf
  intro i c m hcl hml
  obtain ⟨p₀, rest, hrg⟩ : ∃ p₀ rest, t.rng = p₀ :: rest := by
    rcases hr : t.rng with _ | ⟨q, qs⟩
    · exact absurd hr hne
    · exact ⟨q, qs, rfl⟩
  have hm0 : alLookupD m k 0 = 0 := by
    show (alLookup m k).getD 0 = 0
    rw [hml]
    rfl
  have hbp₀ : p₀.1 < (pix.len : Int) := hbound p₀ (by rw [hrg]; simp)
  -- the stored density of a pair
  have hcanon : canon t.name = k := by rw [hnm]; exact hck
  -- first row: creates the taxon
  have hstep : step pixLen i ⟨some pix, some c, m⟩ (mkRow eq t p₀) =
      .ok ⟨some pix, some ⟨c.pix, c.taxa ++ [(k, ⟨k, t.tp, t.age,
          [(p₀.1, if t.tp = .range then round6 p₀.2 else 1)]⟩)]⟩,
        if alLookupD m k 0 < (if t.tp = .range then round6 p₀.2 else 1)
          then alUpdate m k (if t.tp = .range then round6 p₀.2 else 1)
          else m⟩ := by
    simp only [step, mkRow]
    rw [if_neg (show ¬ pix.equator ≠ eq from not_ne_iff.mpr heq)]
    simp only [parseType_rtStr, hcanon]
    rw [if_neg hk0]
    exact @stepRecord_compute_fresh i pix c m k t.tp
      ⟨t.name, rtStr t.tp, t.age, eq, p₀.1, round6 p₀.2⟩ hcl hbp₀
  -- the remaining rows
  have hnd : (((([(p₀.1, if t.tp = .range then round6 p₀.2 else 1)]) ++ rest).map
      Prod.fst)).Nodup := by
    have hmeq : (([(p₀.1, if t.tp = .range then round6 p₀.2 else 1)] ++ rest).map
        Prod.fst) = (p₀ :: rest).map Prod.fst := by simp
    rw [hmeq, ← hrg]
    exact (List.pairwise_map.mpr hpw).imp (fun hab => ne_of_lt hab)
  obtain ⟨m', hrun, hother, hval⟩ :=
    @runRows_block_inner pixLen pix eq k t.name t.tp t.age heq hcanon hk0 rest
      [(p₀.1, if t.tp = .range then round6 p₀.2 else 1)] (i + 1)
      ⟨c.pix, c.taxa ++ [(k, ⟨k, t.tp, t.age,
        [(p₀.1, if t.tp = .range then round6 p₀.2 else 1)]⟩)]⟩
      (if alLookupD m k 0 < (if t.tp = .range then round6 p₀.2 else 1)
        then alUpdate m k (if t.tp = .range then round6 p₀.2 else 1) else m)
      (by
        show alLookup (c.taxa ++ [(k, _)]) k = _
        rw [alLookup_append_of_none hcl]
        simp [alLookup])
      (fun q hq => hbound q (by rw [hrg]; simp [hq]))
      hnd
  refine ⟨m', ?_, ?_, ?_⟩
  · rw [hrg]
    show (match step pixLen i ⟨some pix, some c, m⟩ (mkRow eq t p₀) with
      | Except.error e => (Except.error e : Except DErr DState)
      | Except.ok st1 => runRows pixLen (i + 1) st1 _) = _
    rw [hstep]
    show runRows pixLen (i + 1) _ _ = _
    have hrowf : rest.map (fun p => (⟨t.name, rtStr t.tp, t.age, eq, p.1,
        round6 p.2⟩ : Row)) = rest.map (mkRow eq t) := rfl
    rw [hrowf] at hrun
    rw [hrun]
    rw [alUpdate_append_singleton _ _ hcl]
    have hrng' : ([(p₀.1, if t.tp = .range then round6 p₀.2 else 1)] ++
        rest.map (fun p => (p.1, if t.tp = .range then round6 p.2 else 1))) =
        (decTax t).rng := by
      show _ = (t.rng.map fun p => (p.1, if t.tp = .range then round6 p.2 else 1))
      rw [hrg]
      rfl
    rw [hrng']
    show _ = Except.ok ⟨some pix, some ⟨c.pix, c.taxa ++ [(k, decTax t)]⟩, m'⟩
    have hdec : decTax t = ⟨k, t.tp, t.age, (decTax t).rng⟩ := by
      show (⟨t.name, t.tp, t.age, _⟩ : Taxon) = _
      rw [hnm]
      rfl
    rw [hdec]
  · intro nm₂ hne₂
    rw [hother nm₂ hne₂]
    by_cases hcond : alLookupD m k 0 < (if t.tp = .range then round6 p₀.2 else 1)
    · rw [if_pos hcond, alLookup_alUpdate_ne _ _ hne₂]
    · rw [if_neg hcond]
  · rw [hval]
    -- the fold over all stored densities equals 1
    have hm₁ : alLookupD (if alLookupD m k 0 <
          (if t.tp = .range then round6 p₀.2 else 1)
        then alUpdate m k (if t.tp = .range then round6 p₀.2 else 1) else m)
        k 0 = if alLookupD m k 0 < (if t.tp = .range then round6 p₀.2 else 1)
          then (if t.tp = .range then round6 p₀.2 else 1)
          else alLookupD m k 0 := by
      by_cases hcond : alLookupD m k 0 <
          (if t.tp = .range then round6 p₀.2 else 1)
      · rw [if_pos hcond, if_pos hcond]
        show (alLookup (alUpdate m k _) k).getD 0 = _
        rw [alLookup_alUpdate_self]
        rfl
      · rw [if_neg hcond, if_neg hcond]
    rw [hm₁, hm0]
    have hfold : (rest.map fun p => if t.tp = .range then round6 p.2 else 1).foldl
        (fun a d => if a < d then d else a)
        (if (0 : ℚ) < (if t.tp = .range then round6 p₀.2 else 1)
          then (if t.tp = .range then round6 p₀.2 else 1) else 0) =
        ((p₀ :: rest).map fun p => if t.tp = .range then round6 p.2 else 1).foldl
        (fun a d => if a < d then d else a) 0 := rfl
    rw [hfold, foldl_iteMax_eq_foldr, ← hrg]
    apply foldr_max_eq_one
    · intro dd hdd
      rcases List.mem_map.mp hdd with ⟨q, hq, rfl⟩
      rcases htt : t.tp with _ | _
      · rw [if_neg (by decide : ¬ (RType.points = RType.range))]
      · rw [if_pos rfl]
        exact round6_le_one ((hrng htt).1 q hq)
    · rcases htt : t.tp with _ | _
      · -- points: every stored density is 1 and the list is non-empty
        apply List.mem_map.mpr
        refine ⟨p₀, by rw [hrg]; simp, ?_⟩
        rw [if_neg (by decide : ¬ (RType.points = RType.range))]
      · -- range: the cell with density 1 rounds to 1
        obtain ⟨q, hq, hq1⟩ := (hrng htt).2
        apply List.mem_map.mpr
        refine ⟨q, hq, ?_⟩
        rw [if_pos rfl, hq1, round6_one]

/-- Processing a sequence of per-taxon blocks: every decoded record is
appended in order and every recorded maximum is exactly `1`. -/
theorem runRows_blocks {pixLen : Nat → Nat} {pix : Pixelation} {eq : Nat}
    (heq : pix.equator = eq) :
    ∀ (ts : List (GoStr × Taxon)) (i : Nat) (c : Collection)
      (m : List (GoStr × ℚ)),
      (∀ kt ∈ ts, TaxonWF pix.len kt.1 kt.2) →
      (ts.map Prod.fst).Nodup →
      (∀ kt ∈ ts, alLookup c.taxa kt.1 = none) →
      (∀ kt ∈ ts, alLookup m kt.1 = none) →
      ∃ m', runRows pixLen i ⟨some pix, some c, m⟩
          (ts.flatMap (fun kt => kt.2.rng.map (mkRow eq kt.2))) =
        .ok ⟨some pix, some ⟨c.pix, c.taxa ++
          ts.map (fun kt => (kt.1, decTax kt.2))⟩, m'⟩ ∧
        (∀ nm₂, (∀ kt ∈ ts, ¬ nm₂ = kt.1) →
          alLookup m' nm₂ = alLookup m nm₂) ∧
        (∀ kt ∈ ts, alLookupD m' kt.1 0 = 1) := by
  intro ts
  induction ts with
  | nil =>
    intro i c m _ _ _ _
    refine ⟨m, ?_, fun _ _ => rfl, fun kt hkt => absurd hkt (List.not_mem_nil kt)⟩
    rw [List.map_nil, List.append_nil]
    rfl
  | cons kt₀ ts ih =>
    intro i c m hwf hnd hcl hml
    rcases kt₀ with ⟨k, t⟩
    obtain ⟨m₁, hrun₁, hother₁, hval₁⟩ :=
      runRows_taxon_block heq (hwf (k, t) (by simp)) i c m
        (hcl (k, t) (by simp)) (hml (k, t) (by simp))
    simp only [List.map_cons, List.nodup_cons] at hnd
    have hkts : ∀ kt₂ ∈ ts, ¬ kt₂.1 = k := by
      intro kt₂ hkt₂ he
      exact hnd.1 (List.mem_map.mpr ⟨kt₂, hkt₂, he⟩)
    obtain ⟨m₂, hrun₂, hother₂, hval₂⟩ := ih
      (i + (t.rng.map (mkRow eq t)).length)
      ⟨c.pix, c.taxa ++ [(k, decTax t)]⟩ m₁
      (fun kt₂ hkt₂ => hwf kt₂ (by simp [hkt₂]))
      hnd.2
      (fun kt₂ hkt₂ => by
        show alLookup (c.taxa ++ [(k, decTax t)]) kt₂.1 = none
        rw [alLookup_append_of_none (hcl kt₂ (by simp [hkt₂]))]
        simp [alLookup, hkts kt₂ hkt₂])
      (fun kt₂ hkt₂ => by
        rw [hother₁ kt₂.1 (hkts kt₂ hkt₂)]
        exact hml kt₂ (by simp [hkt₂]))
    refine ⟨m₂, ?_, ?_, ?_⟩
    · show runRows pixLen i ⟨some pix, some c, m⟩
        ((t.rng.map (mkRow eq t)) ++
          ts.flatMap (fun kt => kt.2.rng.map (mkRow eq kt.2))) = _
      rw [runRows_append hrun₁, hrun₂]
      rw [List.append_assoc]
      rfl
    · intro nm₂ hn
      rw [hother₂ nm₂ (fun kt₂ hkt₂ => hn kt₂ (by simp [hkt₂]))]
      exact hother₁ nm₂ (hn (k, t) (by simp))
    · intro kt₂ hkt₂
      rcases List.mem_cons.mp hkt₂ with he | hkt₂
      · rw [he]
        show (alLookup m₂ k).getD 0 = 1
        have hm2 : alLookup m₂ k = alLookup m₁ k :=
          hother₂ k (fun kt₃ hkt₃ hcontra => hkts kt₃ hkt₃ hcontra.symm)
        rw [hm2]
        exact hval₁
      · exact hval₂ kt₂ hkt₂

theorem map_fst_map_pair {α β γ : Type} (g : α × β → γ) :
    ∀ l : List (α × β),
      (l.map fun p => (p.1, g p)).map Prod.fst = l.map Prod.fst := by
  intro l
  induction l with
  | nil => rfl
  | cons p l ih =>
    show (p.1, g p).1 :: (l.map fun p => (p.1, g p)).map Prod.fst = p.1 :: l.map Prod.fst
    rw [ih]

theorem mem_zip_map {α β : Type} (f : α → β) :
    ∀ {l : List α} {pq : α × β}, pq ∈ l.zip (l.map f) →
      pq.1 ∈ l ∧ pq.2 = f pq.1 := by
  intro l
  induction l with
  | nil => intro pq h; cases h
  | cons a l ih =>
    intro pq h
    have h' : pq = (a, f a) ∨ pq ∈ l.zip (l.map f) := List.mem_cons.mp h
    rcases h' with he | h'
    · constructor
      · rw [he]; exact List.mem_cons_self a l
      · rw [he]
    · obtain ⟨h1, h2⟩ := ih h'
      exact ⟨List.mem_cons_of_mem a h1, h2⟩

/-- The scaling pass of `ReadTSV` is the identity when every taxon is
either `Points` or has a recorded maximum of exactly `1`. -/
theorem scaleTaxa_id {m : List (GoStr × ℚ)} {l : List (GoStr × Taxon)}
    (h : ∀ kt ∈ l, kt.2.tp = RType.points ∨ alLookupD m kt.2.name 0 = 1) :
    scaleTaxa m l = l := by
  unfold scaleTaxa
  conv_rhs => rw [← List.map_id l]
  apply List.map_congr_left
  intro kt hkt
  simp only [id_eq]
  rcases h kt hkt with hp | h1
  · rw [if_pos hp]
  · by_cases hp : kt.2.tp = RType.points
    · rw [if_pos hp]
    · rw [if_neg hp]
      show (if alLookupD m kt.2.name 0 = 1 then kt else _) = kt
      rw [if_pos h1]

/-- C1 (amended): for every well-formed, non-empty collection — canonical
keys, sorted storage, cells in bounds, `Points` densities exactly 1, and
`Range` densities normalized to maximum exactly 1, as the public mutators
establish — decoding the encoded stream succeeds and reproduces the same
`Taxa()` list, the same `Type` and `Age` for every name, and for every
taxon a `Range()` with the same cell ids whose densities agree within
1/1000000.  (The original claim over arbitrary collections is refuted by
`C1_counterexample`: decoding renormalizes, so unnormalized densities are
not reproduced; and an empty collection fails to decode at all.) -/
theorem C1_roundtrip (pixLen : Nat → Nat) (c : Collection)
    (hwf : CollWF pixLen c) (hne : c.taxa ≠ []) :
    ∃ c', ReadTSV pixLen none (TSV c) = Except.ok c' ∧
      taxaList c' = taxaList c ∧
      (∀ nm, typeOf c' nm = typeOf c nm) ∧
      (∀ nm, ageOf c' nm = ageOf c nm) ∧
      ∀ nm r, rangeOf c nm = some r →
        ∃ r', rangeOf c' nm = some r' ∧
          r'.map Prod.fst = r.map Prod.fst ∧
          ∀ pq ∈ r.zip r', |pq.2.2 - pq.1.2| ≤ 1 / 1000000 := by
  obtain ⟨kt₀, ts, hts⟩ : ∃ kt₀ ts, c.taxa = kt₀ :: ts := by
    rcases h : c.taxa with _ | ⟨a, l⟩
    · exact absurd h hne
    · exact ⟨a, l, rfl⟩
  have hwf₀ : TaxonWF c.pix.len kt₀.1 kt₀.2 := hwf.2.2 kt₀ (by rw [hts]; simp)
  obtain ⟨p₀, ps, hrg⟩ : ∃ p₀ ps, kt₀.2.rng = p₀ :: ps := by
    rcases h : kt₀.2.rng with _ | ⟨a, l⟩
    · exact absurd h hwf₀.2.2.2.1
    · exact ⟨a, l, rfl⟩
  have hrows : (TSV c).rows =
      c.taxa.flatMap (fun kt => kt.2.rng.map (mkRow c.pix.equator kt.2)) :=
    TSV_rows_eq hwf
  obtain ⟨m', hrun, hoth, hval⟩ :=
    @runRows_blocks pixLen c.pix c.pix.equator rfl c.taxa 1 (New c.pix) []
      hwf.2.2 (collWF_keys_nodup hwf) (fun kt _ => rfl) (fun kt _ => rfl)
  have hstream : c.taxa.flatMap
        (fun kt => kt.2.rng.map (mkRow c.pix.equator kt.2)) =
      mkRow c.pix.equator kt₀.2 p₀ ::
        (ps.map (mkRow c.pix.equator kt₀.2) ++
          ts.flatMap (fun kt => kt.2.rng.map (mkRow c.pix.equator kt.2))) := by
    rw [hts]
    show kt₀.2.rng.map (mkRow c.pix.equator kt₀.2) ++ _ = _
    rw [hrg]
    rfl
  have hstart : runRows pixLen 1 ⟨none, none, []⟩
        (c.taxa.flatMap fun kt => kt.2.rng.map (mkRow c.pix.equator kt.2)) =
      runRows pixLen 1 ⟨some c.pix, some (New c.pix), []⟩
        (c.taxa.flatMap fun kt => kt.2.rng.map (mkRow c.pix.equator kt.2)) := by
    rw [hstream]
    have h1 : (⟨(mkRow c.pix.equator kt₀.2 p₀).equator,
        pixLen (mkRow c.pix.equator kt₀.2 p₀).equator⟩ : Pixelation) = c.pix := by
      show (⟨c.pix.equator, pixLen c.pix.equator⟩ : Pixelation) = c.pix
      rw [← hwf.1]
    rw [runRows_none_eq, h1]
  have hhead : missingField (TSV c).header = none := rfl
  have hrunfull : runRows pixLen 1 ⟨none, none, []⟩ (TSV c).rows =
      Except.ok ⟨some c.pix,
        some ⟨c.pix, c.taxa.map fun kt => (kt.1, decTax kt.2)⟩, m'⟩ := by
    rw [hrows, hstart]
    exact hrun
  have hscale : scaleTaxa m' (c.taxa.map fun kt => (kt.1, decTax kt.2)) =
      c.taxa.map fun kt => (kt.1, decTax kt.2) := by
    apply scaleTaxa_id
    intro kt' hkt'
    obtain ⟨kt, hkt, hgk⟩ := List.mem_map.mp hkt'
    subst hgk
    have hname : kt.2.name = kt.1 := (hwf.2.2 kt hkt).1
    show kt.2.tp = RType.points ∨ alLookupD m' kt.2.name 0 = 1
    rcases htp : kt.2.tp with _ | _
    · exact Or.inl rfl
    · rw [hname]
      exact Or.inr (hval kt hkt)
  have hdec : ReadTSV pixLen none (TSV c) =
      Except.ok ⟨c.pix, c.taxa.map fun kt => (kt.1, decTax kt.2)⟩ := by
    simp only [ReadTSV, hhead, hrunfull, hscale]
  refine ⟨⟨c.pix, c.taxa.map fun kt => (kt.1, decTax kt.2)⟩, hdec, ?_, ?_, ?_, ?_⟩
  · unfold taxaList
    congr 1
    show (c.taxa.map fun kt => (kt.1, decTax kt.2)).map (fun kt => kt.2.name) =
      c.taxa.map (fun kt => kt.2.name)
    rw [List.map_map]
    rfl
  · intro nm
    simp only [typeOf]
    by_cases h0 : canon nm = []
    · rw [if_pos h0, if_pos h0]
    · rw [if_neg h0, if_neg h0]
      show (alLookup (c.taxa.map fun kt => (kt.1, decTax kt.2))
        (canon nm)).map Taxon.tp = (alLookup c.taxa (canon nm)).map Taxon.tp
      rw [alLookup_map_val]
      rcases hl : alLookup c.taxa (canon nm) with _ | t <;> rfl
  · intro nm
    simp only [ageOf]
    by_cases h0 : canon nm = []
    · rw [if_pos h0, if_pos h0]
    · rw [if_neg h0, if_neg h0]
      show (match alLookup (c.taxa.map fun kt => (kt.1, decTax kt.2))
          (canon nm) with
        | none => (0 : Int)
        | some t => t.age) =
        (match alLookup c.taxa (canon nm) with
        | none => (0 : Int)
        | some t => t.age)
      rw [alLookup_map_val]
      rcases hl : alLookup c.taxa (canon nm) with _ | t <;> rfl
  · intro nm r hr
    simp only [rangeOf] at hr
    by_cases h0 : canon nm = []
    · rw [if_pos h0] at hr
      simp at hr
    · rw [if_neg h0] at hr
      rcases hl : alLookup c.taxa (canon nm) with _ | t
      · rw [hl] at hr
        simp at hr
      · rw [hl] at hr
        simp only [Option.map] at hr
        injection hr with hr'
        subst hr'
        have hmemT : (canon nm, t) ∈ c.taxa := alLookup_mem hl
        obtain ⟨hnmT, _, _, _, _, _, hpts, _⟩ := hwf.2.2 (canon nm, t) hmemT
        refine ⟨(decTax t).rng, ?_, ?_, ?_⟩
        · simp only [rangeOf]
          rw [if_neg h0]
          show (alLookup (c.taxa.map fun kt => (kt.1, decTax kt.2))
            (canon nm)).map Taxon.rng = some (decTax t).rng
          rw [alLookup_map_val, hl]
          rfl
        · show (t.rng.map fun p =>
              (p.1, if t.tp = RType.range then round6 p.2 else 1)).map Prod.fst =
            t.rng.map Prod.fst
          exact map_fst_map_pair _ t.rng
        · intro pq hpq
          have hpq' : pq ∈ t.rng.zip (t.rng.map fun p =>
              (p.1, if t.tp = RType.range then round6 p.2 else 1)) := hpq
          obtain ⟨hmemP, hsnd⟩ := mem_zip_map _ hpq'
          rw [hsnd]
          show |(if t.tp = RType.range then round6 pq.1.2 else 1) - pq.1.2| ≤
            1 / 1000000
          rcases htp : t.tp with _ | _
          · rw [if_neg (by decide : ¬ (RType.points = RType.range))]
            rw [hpts htp pq.1 hmemP]
            norm_num
          · rw [if_pos rfl]
            exact round6_abs pq.1.2

/-- C1: the round trip is NOT the identity on arbitrary collections — the
decoder renormalizes.  Encoding `exHalf` (one `Range` taxon whose single
density is 2, maximum 2 ≠ 1) and decoding the result yields density 1 at
the same cell: the values differ by 1, far beyond the 1/1000000
tolerance. -/
theorem C1_counterexample :
    ∃ c', ReadTSV exPixLen none (TSV exHalf) = Except.ok c' ∧
      rangeOf exHalf (gs "X") = some [(0, 2)] ∧
      rangeOf c' (gs "X") = some [(0, 1)] ∧
      ¬ |(1 : ℚ) - 2| ≤ 1 / 1000000 := by
  have h6 : round6 2 = 2 := by
    unfold round6
    have hf : ⌊(2 : ℚ) * 1000000 + 1 / 2⌋ = 2000000 := by
      rw [Int.floor_eq_iff]
      norm_num
    rw [hf]
    norm_num
  have h22 : (2 : ℚ) / 2 = 1 := by norm_num
  refine ⟨⟨exPix, [(gs "X", ⟨gs "X", RType.range, 0, [(0, (2 : ℚ) / 2)]⟩)]⟩,
    ?_, ?_, ?_, ?_⟩
  · have htsv : TSV exHalf = ⟨headerFields,
        [⟨gs "X", gs "range", 0, 4, 0, round6 2⟩]⟩ := rfl
    rw [htsv, h6]
    rfl
  · rfl
  · show some [((0 : Int), (2 : ℚ) / 2)] = some [(0, 1)]
    rw [h22]
  · norm_num

theorem C1_roundtrip_witness :
    CollWF exPixLen exWF ∧ exWF.taxa ≠ [] ∧
      ∃ c', ReadTSV exPixLen none (TSV exWF) = Except.ok c' ∧
        taxaList c' = taxaList exWF ∧
        (∀ nm, typeOf c' nm = typeOf exWF nm) ∧
        (∀ nm, ageOf c' nm = ageOf exWF nm) ∧
        ∀ nm r, rangeOf exWF nm = some r →
          ∃ r', rangeOf c' nm = some r' ∧
            r'.map Prod.fst = r.map Prod.fst ∧
            ∀ pq ∈ r.zip r', |pq.2.2 - pq.1.2| ≤ 1 / 1000000 :=
  ⟨by unfold CollWF TaxonWF; decide, by decide,
    C1_roundtrip exPixLen exWF (by unfold CollWF TaxonWF; decide) (by decide)⟩

end Ranges
